import Mathlib

/-!
Verification development for the vector-store file-console repository.

The repository's algorithmic core is the CSV attribute importer/exporter in
`src/app/files/page.tsx`, together with the attribute-update API route.  We
embed the relevant functions shallowly: JavaScript strings become `List Char`,
JSON values become the `JValue` mutual inductive (numbers are modelled as
integers; the repository's schema uses integer years), fetch calls become an
explicit oracle, and thrown exceptions become explicit error values.
-/

set_option maxRecDepth 40000

abbrev Str := List Char

/-- `parts.join(sep)` for JavaScript arrays of strings. -/
def joinSep (sep : Str) : List Str → Str
  | [] => []
  | [x] => x
  | x :: xs => x ++ sep ++ joinSep sep xs

/-- Whitespace test used by the model of JavaScript `trim` (space, tab,
newline, carriage return — the characters relevant to this code base). -/
def isWsChar (c : Char) : Bool :=
  c = ' ' || c = '\t' || c = '\n' || c = '\r'

/-- Model of JavaScript `String.prototype.trim`. -/
def trimChars (s : Str) : Str :=
  ((s.dropWhile isWsChar).reverse.dropWhile isWsChar).reverse

/-- Model of JavaScript `String.prototype.toLowerCase` (ASCII range, which is
all this code base compares). -/
def toLowerChars (s : Str) : Str :=
  s.map Char.toLower

/-- Model of JavaScript `String.prototype.includes`. -/
def includesChars (s pat : Str) : Bool :=
  match s with
  | [] => pat.isEmpty
  | _ :: t => pat.isPrefixOf s || includesChars t pat

/-- `line.split(/\r?\n/)`: split at `\n`, also consuming one `\r`
immediately before it.  A lone `\r` does not split. -/
def splitLinesAux : Str → Str → List Str
  | [], cur => [cur.reverse]
  | '\r' :: '\n' :: rest, cur => cur.reverse :: splitLinesAux rest []
  | '\n' :: rest, cur => cur.reverse :: splitLinesAux rest []
  | c :: rest, cur => splitLinesAux rest (c :: cur)

/-- `text.split(/\r?\n/).filter(line => line.trim() !== '')`
(src/app/files/page.tsx, line 311). -/
def splitNonBlankLines (text : Str) : List Str :=
  (splitLinesAux text []).filter (fun l => !(trimChars l).isEmpty)

/-- The character loop of `parseCSVLine` (src/app/files/page.tsx, lines
314-340): `inQ` is the `inQuotes` flag, `cell` the current cell accumulator
(kept reversed), `acc` the cells already emitted (kept reversed). -/
def parseCSVLineAux : Str → Bool → Str → List Str → List Str
  | [], _, cell, acc => (trimChars cell.reverse :: acc).reverse
  | '"' :: '"' :: rest, true, cell, acc => parseCSVLineAux rest true ('"' :: cell) acc
  | '"' :: rest, inQ, cell, acc => parseCSVLineAux rest (!inQ) cell acc
  | ',' :: rest, false, cell, acc => parseCSVLineAux rest false [] (trimChars cell.reverse :: acc)
  | c :: rest, inQ, cell, acc => parseCSVLineAux rest inQ (c :: cell) acc

/-- `parseCSVLine` from `handleImportFiles` (src/app/files/page.tsx,
lines 314-340): character-level CSV field splitting honouring double-quoted
fields and doubled-quote escapes; every emitted cell is trimmed. -/
def parseCSVLine (line : Str) : List Str :=
  parseCSVLineAux line false [] []

/-- One doubling pass `cell.replace(/"/g, '""')` used by the exporter
(src/app/files/page.tsx, line 225). -/
def escQuotesCSV : Str → Str
  | [] => []
  | '"' :: rest => '"' :: '"' :: escQuotesCSV rest
  | c :: rest => c :: escQuotesCSV rest

/-- `'"' + cell.replace(/"/g,'""') + '"'` — the exporter's cell encoding
(src/app/files/page.tsx, line 225). -/
def quoteCell (cell : Str) : Str :=
  '"' :: escQuotesCSV cell ++ ['"']

/-- `row.map(quoteCell).join(',')` (src/app/files/page.tsx, line 225). -/
def encodeRow (cells : List Str) : Str :=
  joinSep [','] (cells.map quoteCell)

/-!
## JSON model

`JValue` models the JavaScript values produced by `JSON.parse` and consumed by
`JSON.stringify` in the repository.  Numbers are modelled as integers (the
repository's attribute schema uses integer years and the claims never exercise
fractional numbers).  Objects keep their key insertion order, as JavaScript
objects do.
-/

mutual
inductive JValue where
  | jnull
  | jbool (b : Bool)
  | jnum (n : Int)
  | jstr (s : Str)
  | jarr (xs : JArr)
  | jobj (m : JObj)
inductive JArr where
  | anil
  | acons (v : JValue) (rest : JArr)
inductive JObj where
  | onil
  | ocons (k : Str) (v : JValue) (rest : JObj)
end

/-- Keys of an object, in order (model of `Object.keys`). -/
def JObj.keys : JObj → List Str
  | .onil => []
  | .ocons k _ rest => k :: JObj.keys rest

/-- Number of fields of an object. -/
def JObj.length : JObj → Nat
  | .onil => 0
  | .ocons _ _ rest => JObj.length rest + 1

/-- First value bound to `k`, if any (model of `k in obj` / `obj[k]` for
objects built by `JSON.parse`, whose keys are distinct). -/
def JObj.lookup : JObj → Str → Option JValue
  | .onil, _ => none
  | .ocons k v rest, k' => if k = k' then some v else JObj.lookup rest k'

/-- Insertion as performed when `JSON.parse` builds an object: a repeated key
keeps its first position but takes the latest value; a new key is appended. -/
def JObj.insert : JObj → Str → JValue → JObj
  | .onil, k, v => .ocons k v .onil
  | .ocons k' v' rest, k, v =>
    if k' = k then .ocons k' v rest else .ocons k' v' (JObj.insert rest k v)

/-- Decimal digits of a natural number, most significant first (fueled so the
definition is structural and kernel-reducible). -/
def natDigitsAux : Nat → Nat → Str
  | 0, _ => []
  | fuel + 1, n =>
    if n < 10 then [Char.ofNat (48 + n)]
    else natDigitsAux fuel (n / 10) ++ [Char.ofNat (48 + n % 10)]

def natDigits (n : Nat) : Str := natDigitsAux (n + 1) n

/-- Decimal rendering of an integer, as JavaScript renders integral numbers. -/
def intToChars (n : Int) : Str :=
  if n < 0 then '-' :: natDigits n.natAbs else natDigits n.toNat

/-- Hexadecimal digit (lower case), for `\u00XX` escapes. -/
def hexDigit (n : Nat) : Char :=
  if n < 10 then Char.ofNat (48 + n) else Char.ofNat (87 + n)

/-- `JSON.stringify` escaping of one string character. -/
def escapeJSONChar (c : Char) : Str :=
  if c = '"' then ['\\', '"']
  else if c = '\\' then ['\\', '\\']
  else if c = '\n' then ['\\', 'n']
  else if c = '\r' then ['\\', 'r']
  else if c = '\t' then ['\\', 't']
  else if c = '\x08' then ['\\', 'b']
  else if c = '\x0c' then ['\\', 'f']
  else if c.toNat < 32 then
    ['\\', 'u', '0', '0', hexDigit (c.toNat / 16), hexDigit (c.toNat % 16)]
  else [c]

def escStrBody (s : Str) : Str :=
  match s with
  | [] => []
  | c :: rest => escapeJSONChar c ++ escStrBody rest

/-- `JSON.stringify` of a string: quoted, with escapes. -/
def escStr (s : Str) : Str :=
  '"' :: escStrBody s ++ ['"']

mutual
def stringifyV : JValue → Str
  | .jnull => ['n', 'u', 'l', 'l']
  | .jbool true => ['t', 'r', 'u', 'e']
  | .jbool false => ['f', 'a', 'l', 's', 'e']
  | .jnum n => intToChars n
  | .jstr s => escStr s
  | .jarr xs => '[' :: stringifyArr xs ++ [']']
  | .jobj m => '{' :: stringifyObj m ++ ['}']
def stringifyArr : JArr → Str
  | .anil => []
  | .acons v rest => stringifyV v ++ stringifyArrRest rest
def stringifyArrRest : JArr → Str
  | .anil => []
  | .acons v rest => ',' :: stringifyV v ++ stringifyArrRest rest
def stringifyObj : JObj → Str
  | .onil => []
  | .ocons k v rest => escStr k ++ ':' :: stringifyV v ++ stringifyObjRest rest
def stringifyObjRest : JObj → Str
  | .onil => []
  | .ocons k v rest => ',' :: escStr k ++ ':' :: stringifyV v ++ stringifyObjRest rest
end

/-- A character that `JSON.stringify` emits verbatim inside a string. -/
def plainChar (c : Char) : Bool :=
  c ≠ '"' && c ≠ '\\' && 32 ≤ c.toNat

def plainStr (s : Str) : Bool := s.all plainChar

mutual
/-- Values whose serialization contains no backslash escapes: every string
(key or value) consists of plain characters. -/
def plainV : JValue → Bool
  | .jnull => true
  | .jbool _ => true
  | .jnum _ => true
  | .jstr s => plainStr s
  | .jarr xs => plainArr xs
  | .jobj m => plainObj m
def plainArr : JArr → Bool
  | .anil => true
  | .acons v rest => plainV v && plainArr rest
def plainObj : JObj → Bool
  | .onil => true
  | .ocons k v rest => plainStr k && plainV v && plainObj rest
end

def isDigitChar (c : Char) : Bool := 48 ≤ c.toNat && c.toNat ≤ 57

mutual
/-- Every object nested in the value has pairwise-distinct keys — true of
every value produced by `JSON.parse` (JavaScript objects cannot hold
duplicate keys). -/
def dkV : JValue → Bool
  | .jnull => true
  | .jbool _ => true
  | .jnum _ => true
  | .jstr _ => true
  | .jarr xs => dkArr xs
  | .jobj m => dkObj m
def dkArr : JArr → Bool
  | .anil => true
  | .acons v rest => dkV v && dkArr rest
def dkObj : JObj → Bool
  | .onil => true
  | .ocons k v rest => (JObj.lookup rest k).isNone && dkV v && dkObj rest
end

/-- The next character, if any, does not extend a decimal literal. -/
def numDelim (s : Str) : Prop :=
  ∀ c, s.head? = some c → isDigitChar c = false

/-- Characters that never occur in the serialization of a plain value:
backslash, newline, carriage return. -/
def charOK (c : Char) : Prop :=
  c ≠ '\\' ∧ c ≠ '\n' ∧ c ≠ '\r'

/-- The head of a serialized JSON value: a literal keyword, a quote, an open
bracket or brace, a minus sign, or a digit. -/
def headKind (c : Char) : Prop :=
  c = 'n' ∨ c = 't' ∨ c = 'f' ∨ c = '"' ∨ c = '[' ∨ c = '{' ∨ c = '-' ∨ isDigitChar c = true

/-!
## JSON parsing

A fueled recursive-descent parser modelling `JSON.parse`.  In line with the
integer modelling of numbers, the number production recognises an optional
minus sign followed by decimal digits.  Object literals are built with
`JObj.insert`, reproducing JavaScript's duplicate-key behaviour (first
position, last value).
-/

def skipWs (s : Str) : Str := s.dropWhile isWsChar

def hexVal (c : Char) : Option Nat :=
  if 48 ≤ c.toNat && c.toNat ≤ 57 then some (c.toNat - 48)
  else if 97 ≤ c.toNat && c.toNat ≤ 102 then some (c.toNat - 87)
  else if 65 ≤ c.toNat && c.toNat ≤ 70 then some (c.toNat - 55)
  else none

/-- String body after the opening quote: content up to the closing quote,
decoding escapes. -/
def parseStringBody : Str → Option (Str × Str)
  | [] => none
  | c :: rest =>
    if c = '"' then some ([], rest)
    else if c = '\\' then
      match rest with
      | [] => none
      | e :: rest2 =>
        if e = '"' then (parseStringBody rest2).map (fun p => ('"' :: p.1, p.2))
        else if e = '\\' then (parseStringBody rest2).map (fun p => ('\\' :: p.1, p.2))
        else if e = '/' then (parseStringBody rest2).map (fun p => ('/' :: p.1, p.2))
        else if e = 'n' then (parseStringBody rest2).map (fun p => ('\n' :: p.1, p.2))
        else if e = 'r' then (parseStringBody rest2).map (fun p => ('\r' :: p.1, p.2))
        else if e = 't' then (parseStringBody rest2).map (fun p => ('\t' :: p.1, p.2))
        else if e = 'b' then (parseStringBody rest2).map (fun p => ('\x08' :: p.1, p.2))
        else if e = 'f' then (parseStringBody rest2).map (fun p => ('\x0c' :: p.1, p.2))
        else if e = 'u' then
          match rest2 with
          | h1 :: h2 :: h3 :: h4 :: rest3 =>
            match hexVal h1, hexVal h2, hexVal h3, hexVal h4 with
            | some a, some b, some c', some d =>
              (parseStringBody rest3).map
                (fun p => (Char.ofNat (((a * 16 + b) * 16 + c') * 16 + d) :: p.1, p.2))
            | _, _, _, _ => none
          | _ => none
        else none
    else if c.toNat < 32 then none
    else (parseStringBody rest).map (fun p => (c :: p.1, p.2))

def digitsToNat (ds : Str) : Nat :=
  ds.foldl (fun a c => a * 10 + (c.toNat - 48)) 0

/-- Decimal integer production. -/
def parseNumber (s : Str) : Option (JValue × Str) :=
  if s.head? = some '-' then
    let ds := s.tail.takeWhile isDigitChar
    if ds.isEmpty then none
    else some (.jnum (-(digitsToNat ds : Int)), s.tail.dropWhile isDigitChar)
  else
    let ds := s.takeWhile isDigitChar
    if ds.isEmpty then none
    else some (.jnum (digitsToNat ds : Int), s.dropWhile isDigitChar)

def listToJArr : List JValue → JArr
  | [] => .anil
  | v :: rest => .acons v (listToJArr rest)

def arrToList : JArr → List JValue
  | .anil => []
  | .acons v rest => v :: arrToList rest

def objToPairs : JObj → List (Str × JValue)
  | .onil => []
  | .ocons k v rest => (k, v) :: objToPairs rest

/-- Build an object from parsed fields in textual order, with JavaScript's
duplicate-key handling. -/
def foldIns (pairs : List (Str × JValue)) : JObj :=
  pairs.foldl (fun o kv => o.insert kv.1 kv.2) .onil

mutual
def parseValueA : Nat → Str → Option (JValue × Str)
  | 0, _ => none
  | fuel + 1, s =>
    match skipWs s with
    | [] => none
    | c :: r =>
      if c = '"' then (parseStringBody r).map (fun p => (.jstr p.1, p.2))
      else if c = '[' then
        let r' := skipWs r
        if r'.head? = some ']' then some (.jarr .anil, r'.tail)
        else (parseArrElems fuel r').map (fun p => (.jarr (listToJArr p.1), p.2))
      else if c = '{' then
        let r' := skipWs r
        if r'.head? = some '}' then some (.jobj .onil, r'.tail)
        else (parseObjFields fuel r').map (fun p => (.jobj (foldIns p.1), p.2))
      else if ['n', 'u', 'l', 'l'].isPrefixOf (c :: r) then some (.jnull, r.drop 3)
      else if ['t', 'r', 'u', 'e'].isPrefixOf (c :: r) then some (.jbool true, r.drop 3)
      else if ['f', 'a', 'l', 's', 'e'].isPrefixOf (c :: r) then some (.jbool false, r.drop 4)
      else parseNumber (c :: r)
def parseArrElems : Nat → Str → Option (List JValue × Str)
  | 0, _ => none
  | fuel + 1, s =>
    match parseValueA fuel s with
    | none => none
    | some (v, r) =>
      let r' := skipWs r
      if r'.head? = some ',' then
        (parseArrElems fuel r'.tail).map (fun p => (v :: p.1, p.2))
      else if r'.head? = some ']' then some ([v], r'.tail)
      else none
def parseObjFields : Nat → Str → Option (List (Str × JValue) × Str)
  | 0, _ => none
  | fuel + 1, s =>
    match skipWs s with
    | '"' :: r =>
      match parseStringBody r with
      | none => none
      | some (k, r2) =>
        match skipWs r2 with
        | ':' :: r3 =>
          match parseValueA fuel r3 with
          | none => none
          | some (v, r4) =>
            let r' := skipWs r4
            if r'.head? = some ',' then
              (parseObjFields fuel r'.tail).map (fun p => ((k, v) :: p.1, p.2))
            else if r'.head? = some '}' then some ([(k, v)], r'.tail)
            else none
        | _ => none
    | _ => none
end

/-- Model of `JSON.parse`: `none` models a thrown `SyntaxError`. -/
def jsonParseChars (s : Str) : Option JValue :=
  match parseValueA (s.length + 1) s with
  | some (v, rest) => if (skipWs rest).isEmpty then some v else none
  | none => none

/-!
## Data model and pipeline

`FileRec` embeds the `File` interface of `src/app/files/page.tsx` (lines
25-35).  Network effects are made explicit: the PATCH fetch of the import
loop and of `handleSaveMetadata` is replaced by an oracle deciding success,
and the list of issued calls is returned so that "no remote call was made"
is a statement about the model.  Thrown exceptions become error values.
-/

structure FileRec where
  id : Str
  name : Str
  attributes : JValue
  vectorStoreId : Str
  object : Str
  bytes : Int
  created_at : Int
  filename : Str
  purpose : Str

/-- `file.filename || file.name` (the empty string is falsy). -/
def displayName (f : FileRec) : Str :=
  if f.filename.isEmpty then f.name else f.filename

/-- Why a data row aborted the parse stage (the code wraps all of these in
one thrown `Error`; the constructors record which check fired). -/
inductive RowFailKind where
  | jsonSyntax
  | notObject
  | missingRequired (fields : List Str)
  | yearNotNumber
  | badStatus

/-- Errors that abort the whole import before any reconciliation.
`emptyFile` and `headerCrash` model the `TypeError`s thrown when
`lines[0]` respectively `headers[1]` are `undefined`. -/
inductive ImportError where
  | emptyFile
  | headerCrash
  | invalidFormat
  | rowError (fileName : Str) (kind : RowFailKind)
  | noValidRows

def requiredFields : List Str :=
  ["title".data, "documentCategory".data, "documentType".data, "year".data,
   "version".data, "referenceCode".data, "status".data, "jurisdiction".data]

def validStatuses : List Str :=
  ["active".data, "draft".data, "superseded".data, "withdrawn".data, "legacy".data]

/-- `validateMetadata` (src/app/files/page.tsx, lines 279-295): `none` means
the row passed; `some k` records which check threw.  Applying `in` to a
non-object throws in JavaScript, hence `notObject`. -/
def validateMetadata (attrs : JValue) : Option RowFailKind :=
  match attrs with
  | .jobj m =>
    let missing := requiredFields.filter (fun f => (m.lookup f).isNone)
    if !missing.isEmpty then some (.missingRequired missing)
    else
      match m.lookup ("year".data) with
      | some (.jnum _) =>
        match m.lookup ("status".data) with
        | some (.jstr s) => if validStatuses.contains s then none else some .badStatus
        | _ => some .badStatus
      | _ => some .yearNotNumber
  | _ => some .notObject

/-- `s.replace(/^"|"$/g, '')`: one leading and one trailing double quote
removed, when present. -/
def dropLeadQuote : Str → Str
  | '"' :: rest => rest
  | s => s

def dropTrailQuote (s : Str) : Str :=
  if s.getLast? = some '"' then s.dropLast else s

def stripOuterQuotes (s : Str) : Str := dropTrailQuote (dropLeadQuote s)

/-- `s.replace(/\\"/g, '"')`. -/
def replaceBSQ : Str → Str
  | [] => []
  | '\\' :: '"' :: rest => '"' :: replaceBSQ rest
  | c :: rest => c :: replaceBSQ rest

/-- `s.replace(/\\/g, '')`. -/
def removeBS (s : Str) : Str := s.filter (fun c => c != '\\')

inductive RowStep where
  | skipRow
  | okRow (fileName : Str) (attrs : JValue)
  | failRow (e : ImportError)

def instrToken : Str := "Instructions:".data

/-- The attribute-cell cleanup chain of `handleImportFiles`
(src/app/files/page.tsx, lines 360-367): strip one layer of quotes and trim,
then undo backslash-escaped quotes, strip quotes again, drop remaining
backslashes, trim. -/
def cleanAttrCell (c1 : Str) : Str :=
  trimChars (removeBS (stripOuterQuotes (replaceBSQ (trimChars (stripOuterQuotes c1)))))

/-- One iteration of the data-row loop of `handleImportFiles`
(src/app/files/page.tsx, lines 350-379): skip conditions, the filename and
attribute-cell cleanup chain, JSON parse and schema validation. -/
def processLine (line : Str) : RowStep :=
  if (trimChars line).isEmpty || instrToken.isPrefixOf line then .skipRow
  else
    match parseCSVLine line with
    | c0 :: c1 :: _ =>
      let fileName := trimChars (stripOuterQuotes c0)
      if fileName.isEmpty then .skipRow
      else
        match jsonParseChars (cleanAttrCell c1) with
        | none => .failRow (.rowError fileName .jsonSyntax)
        | some attrs =>
          match validateMetadata attrs with
          | some k => .failRow (.rowError fileName k)
          | none => .okRow fileName attrs
    | _ => .skipRow

/-- The data-row loop: first failure aborts; an empty update list after the
loop is the `No valid data rows` error (src/app/files/page.tsx, lines
348-383). -/
def processRows : List Str → List (Str × JValue) → Except ImportError (List (Str × JValue))
  | [], acc => if acc.isEmpty then .error .noValidRows else .ok acc
  | l :: ls, acc =>
    match processLine l with
    | .skipRow => processRows ls acc
    | .okRow n a => processRows ls (acc ++ [(n, a)])
    | .failRow e => .error e

/-- The whole parse stage of `handleImportFiles` (src/app/files/page.tsx,
lines 307-383): line split, header validation (short-circuit order as in the
source), then the data-row loop. -/
def parseImportRows (text : Str) : Except ImportError (List (Str × JValue)) :=
  match splitNonBlankLines text with
  | [] => .error .emptyFile
  | l0 :: rest =>
    match parseCSVLine l0 with
    | [] => .error .headerCrash
    | h0 :: hrest =>
      if toLowerChars h0 ≠ "file name".data then .error .invalidFormat
      else
        match hrest with
        | [] => .error .headerCrash
        | h1 :: _ =>
          if includesChars (toLowerChars h1) ("attributes".data) then processRows rest []
          else .error .invalidFormat

/-- A PATCH request issued by the client (url file id, JSON body fields). -/
structure RemoteCall where
  fileId : Str
  attributes : JValue
  vectorStoreId : Str

inductive ErrReason where
  | importError (e : ImportError)
  | updateFailed

structure Bucket where
  count : Nat
  files : List Str

structure ErrBucket where
  count : Nat
  files : List (Str × ErrReason)

structure Summary where
  success : Bucket
  errors : ErrBucket
  notFound : Bucket

def emptySummary : Summary := ⟨⟨0, []⟩, ⟨0, []⟩, ⟨0, []⟩⟩

/-- The matching predicate of the reconciliation loop (src/app/files/page.tsx,
lines 387-392). -/
def fileMatches (fileName : Str) (f : FileRec) : Bool :=
  f.filename == fileName || f.name == fileName ||
  f.filename == fileName ++ ".pdf".data || f.name == fileName ++ ".pdf".data

def findMatch (files : List FileRec) (n : Str) : Option FileRec :=
  files.find? (fileMatches n)

/-- One iteration of the reconciliation loop (src/app/files/page.tsx, lines
386-427): unmatched rows go to `notFound` without a call; matched rows issue
a PATCH whose success is decided by the oracle. -/
def reconcileStep (files : List FileRec) (oracle : Str → JValue → Bool)
    (st : Summary × List RemoteCall) (u : Str × JValue) : Summary × List RemoteCall :=
  match findMatch files u.1 with
  | none =>
    ({ st.1 with notFound := ⟨st.1.notFound.count + 1, st.1.notFound.files ++ [u.1]⟩ }, st.2)
  | some f =>
    let calls := st.2 ++ [⟨f.id, u.2, f.vectorStoreId⟩]
    if oracle f.id u.2 then
      ({ st.1 with success := ⟨st.1.success.count + 1, st.1.success.files ++ [u.1]⟩ }, calls)
    else
      ({ st.1 with errors := ⟨st.1.errors.count + 1, st.1.errors.files ++ [(u.1, .updateFailed)]⟩ }, calls)

def reconcile (files : List FileRec) (oracle : Str → JValue → Bool)
    (updates : List (Str × JValue)) : Summary × List RemoteCall :=
  updates.foldl (reconcileStep files oracle) (emptySummary, [])

/-- The catch-all summary shown when the parse stage throws
(src/app/files/page.tsx, lines 438-451). -/
def errorSummary (e : ImportError) : Summary :=
  ⟨⟨0, []⟩, ⟨1, [("Import Process".data, .importError e)]⟩, ⟨0, []⟩⟩

/-- `handleImportFiles` end to end: on a parse-stage error the catch block
shows the error summary and no PATCH was issued; otherwise the
reconciliation loop runs. -/
def handleImportFiles (files : List FileRec) (oracle : Str → JValue → Bool)
    (text : Str) : Summary × List RemoteCall :=
  match parseImportRows text with
  | .error e => (errorSummary e, [])
  | .ok updates => reconcile files oracle updates

/-- `Object.keys` as used on a parsed JSON value. -/
def keysOf : JValue → List Str
  | .jobj m => m.keys
  | _ => []

inductive SaveOutcome where
  | invalidJSON
  | tooManyKeys
  | keyTooLong
  | updateFailed (call : RemoteCall)
  | saved (call : RemoteCall) (files : List FileRec)

/-- `handleSaveMetadata` (src/app/files/page.tsx, lines 137-181): parse the
textarea, enforce the 16-key / 256-character constraints before the fetch,
and on success replace only the edited record's attributes in the local
mirror.  Only the first three outcomes issue no PATCH. -/
def handleSaveMetadata (editingFile : FileRec) (files : List FileRec)
    (input : Str) (oracle : Bool) : SaveOutcome :=
  match jsonParseChars input with
  | none => .invalidJSON
  | some parsed =>
    if (keysOf parsed).length > 16 then .tooManyKeys
    else if (keysOf parsed).any (fun k => k.length > 256) then .keyTooLong
    else
      if oracle then
        .saved ⟨editingFile.id, parsed, editingFile.vectorStoreId⟩
          (files.map (fun f =>
            if f.id == editingFile.id then { f with attributes := parsed } else f))
      else .updateFailed ⟨editingFile.id, parsed, editingFile.vectorStoreId⟩

inductive PatchOutcome where
  | missingVectorStore
  | tooManyKeys
  | keyTooLong
  | forwarded (vectorStoreId fileId : Str) (attributes : JValue)

/-- The PATCH API route (src/unnamed/part_001, lines 6-37): reject a missing
vector-store id, then the 16-key / 256-character constraints, before any
call to the collaborator; `forwarded` is the `openai.vectorStores.files.update`
call. -/
def patchRoute (fileId : Str) (vectorStoreId : Str) (attributes : JValue) : PatchOutcome :=
  if vectorStoreId.isEmpty then .missingVectorStore
  else if (keysOf attributes).length > 16 then .tooManyKeys
  else if (keysOf attributes).any (fun k => k.length > 256) then .keyTooLong
  else .forwarded vectorStoreId fileId attributes

def exportHeaderCells : List Str :=
  ["File Name".data, "File ID".data, "Size (bytes)".data, "Created At".data,
   "Purpose".data, "Vector Store ID".data, "Attributes".data]

/-- One export data row (src/app/files/page.tsx, lines 210-221).  The
`Created At` cell `new Date(created_at*1000).toISOString()` is abstracted by
the `fmtDate` parameter; no claim depends on its content. -/
def exportRowCells (fmtDate : Int → Str) (f : FileRec) : List Str :=
  [displayName f, f.id, intToChars f.bytes, fmtDate f.created_at,
   f.purpose, f.vectorStoreId, stringifyV f.attributes]

def exportMatrix (fmtDate : Int → Str) (files : List FileRec) : List (List Str) :=
  exportHeaderCells :: files.map (exportRowCells fmtDate)

/-- `handleExportFiles` (src/app/files/page.tsx, lines 204-237): quote and
escape every cell, join cells with commas and rows with newlines. -/
def handleExportFiles (fmtDate : Int → Str) (files : List FileRec) : Str :=
  joinSep ['\n'] ((exportMatrix fmtDate files).map encodeRow)

deriving instance DecidableEq for RowFailKind

deriving instance DecidableEq for ImportError

/-!
## Spec-side definitions

These definitions restate parts of the specification in its own vocabulary,
to be compared against the source-derived functions above.
-/

/-- The 7-column export matrix remapped to the importer's 2-column
`File Name` / `Attributes` schema: keep the first and last column of every
row (the header row maps to exactly `File Name,Attributes`). -/
def remap2 (m : List (List Str)) : List (List Str) :=
  m.map (fun r => [r.headI, r.getLastD []])

/-- Export the file list, remap to the two-column schema, and re-encode as
CSV text — the input of the round-trip experiment. -/
def exportThenImportText (fmtDate : Int → Str) (files : List FileRec) : Str :=
  joinSep ['\n'] ((remap2 (exportMatrix fmtDate files)).map encodeRow)

/-- CSV cell escaping in the specification's words: every internal double
quote doubled, the cell wrapped in double quotes. -/
def quoteCellSpec (cell : Str) : Str :=
  '"' :: (cell.flatMap (fun c => if c = '"' then ['"', '"'] else [c])) ++ ['"']

/-- One CSV line in the specification's words. -/
def rowLineSpec (cells : List Str) : Str :=
  joinSep [','] (cells.map quoteCellSpec)

/-- The CSV-export output as described by the specification: the fixed header
row, then one row per record in list order, the record's attributes
serialized as a JSON string, every cell escaped and quoted. -/
def exportCSVSpec (fmtDate : Int → Str) (files : List FileRec) : Str :=
  joinSep ['\n']
    (rowLineSpec
        ["File Name".data, "File ID".data, "Size (bytes)".data, "Created At".data,
         "Purpose".data, "Vector Store ID".data, "Attributes".data] ::
      files.map (fun f =>
        rowLineSpec [displayName f, f.id, intToChars f.bytes, fmtDate f.created_at,
          f.purpose, f.vectorStoreId, stringifyV f.attributes]))

/-- Header acceptance in the claim's words: first parsed column
case-insensitively equals `file name`, second parsed column exists and
case-insensitively contains `attributes`. -/
def headerAccepted (headers : List Str) : Prop :=
  match headers with
  | h0 :: h1 :: _ =>
    toLowerChars h0 = "file name".data ∧ includesChars (toLowerChars h1) ("attributes".data) = true
  | _ => False

/-- A decoded attribute value violating the import schema, in the claim's
words: a required key missing, or `year` not a number, or `status` not one
of the five enumerated strings. -/
def schemaBad (m : JObj) : Prop :=
  (∃ k ∈ requiredFields, m.lookup k = none) ∨
  (∀ i : Int, m.lookup ("year".data) ≠ some (.jnum i)) ∨
  (∀ st : Str, m.lookup ("status".data) = some (.jstr st) → validStatuses.contains st = false)

/-- The row-failure kinds that are schema violations (as opposed to JSON
syntax errors). -/
def isSchemaViolation : RowFailKind → Bool
  | .missingRequired _ => true
  | .yearNotNumber => true
  | .badStatus => true
  | _ => false

/-- The schema-violation kind recorded for a value (meaningful when
`validateMetadata` rejects it). -/
def violationKind (attrs : JValue) : RowFailKind :=
  (validateMetadata attrs).getD .jsonSyntax

/-- A data line that decodes up to schema validation: not skipped, at least
two cells, a nonempty file name, and an attributes cell whose cleanup chain
parses as JSON. -/
def lineDecodes (l : Str) (n : Str) (attrs : JValue) : Prop :=
  ¬((trimChars l).isEmpty = true ∨ instrToken.isPrefixOf l = true) ∧
  (∃ c0 c1 rest, parseCSVLine l = c0 :: c1 :: rest ∧
    trimChars (stripOuterQuotes c0) = n ∧ n ≠ [] ∧
    jsonParseChars (cleanAttrCell c1) = some attrs)

/-- No line of the list makes the data-row loop throw. -/
def noFailIn (ls : List Str) : Prop :=
  ∀ l ∈ ls, ∀ e, processLine l ≠ .failRow e

/-!
## Object reconstruction lemmas
-/

def oappend : JObj → JObj → JObj
  | .onil, m => m
  | .ocons k v r, m => .ocons k v (oappend r m)

/-- Conditions on a file record under which its exported row survives
the import parse stage unchanged. -/
def goodRecord (f : FileRec) : Prop :=
  (∃ m : JObj, f.attributes = .jobj m ∧ plainObj m = true ∧ dkObj m = true) ∧
  validateMetadata f.attributes = none ∧
  '"' ∉ displayName f ∧ '\n' ∉ displayName f ∧ '\r' ∉ displayName f ∧
  (trimChars (displayName f)).isEmpty = false

/-- Which summary bucket a parsed row lands in: 0 success, 1 error,
2 not-found. -/
def rowBucket (files : List FileRec) (oracle : Str → JValue → Bool)
    (u : Str × JValue) : Nat :=
  match findMatch files u.1 with
  | none => 2
  | some f => if oracle f.id u.2 then 0 else 1

/-- The PATCH calls the reconciliation loop issues, in row order. -/
def callsOf (files : List FileRec) (updates : List (Str × JValue)) : List RemoteCall :=
  updates.filterMap (fun u =>
    (findMatch files u.1).map (fun f => ⟨f.id, u.2, f.vectorStoreId⟩))

/-!
## Concrete data for witnesses and counterexamples
-/

def attrsOK : JObj :=
  .ocons ("title".data) (.jstr ("t".data))
    (.ocons ("documentCategory".data) (.jstr ("c".data))
    (.ocons ("documentType".data) (.jstr ("d".data))
    (.ocons ("year".data) (.jnum 2021)
    (.ocons ("version".data) (.jstr ("".data))
    (.ocons ("referenceCode".data) (.jstr ("r".data))
    (.ocons ("status".data) (.jstr ("active".data))
    (.ocons ("jurisdiction".data) (.jstr ("aus".data)) .onil)))))))

def attrsNoStatus : JObj :=
  .ocons ("title".data) (.jstr ("t".data))
    (.ocons ("documentCategory".data) (.jstr ("c".data))
    (.ocons ("documentType".data) (.jstr ("d".data))
    (.ocons ("year".data) (.jnum 2021)
    (.ocons ("version".data) (.jstr ("".data))
    (.ocons ("referenceCode".data) (.jstr ("r".data))
    (.ocons ("jurisdiction".data) (.jstr ("aus".data)) .onil))))))

/-- Like `attrsOK` but the title value contains a double quote, which
the import cleanup chain destroys. -/
def attrsQuote : JObj :=
  .ocons ("title".data) (.jstr ("a\"b".data))
    (.ocons ("documentCategory".data) (.jstr ("c".data))
    (.ocons ("documentType".data) (.jstr ("d".data))
    (.ocons ("year".data) (.jnum 2021)
    (.ocons ("version".data) (.jstr ("".data))
    (.ocons ("referenceCode".data) (.jstr ("r".data))
    (.ocons ("status".data) (.jstr ("active".data))
    (.ocons ("jurisdiction".data) (.jstr ("aus".data)) .onil)))))))

def fRec : FileRec :=
  { id := "file-1".data, name := "f.pdf".data, attributes := .jobj attrsOK,
    vectorStoreId := "vs".data, object := "file".data, bytes := 10,
    created_at := 0, filename := "f.pdf".data, purpose := "assistants".data }

def gRec : FileRec :=
  { id := "file-2".data, name := "g.pdf".data, attributes := .jobj attrsOK,
    vectorStoreId := "vs".data, object := "file".data, bytes := 20,
    created_at := 0, filename := "g.pdf".data, purpose := "assistants".data }

def repRec : FileRec :=
  { id := "file-3".data, name := "report.pdf".data, attributes := .jobj .onil,
    vectorStoreId := "vs".data, object := "file".data, bytes := 5,
    created_at := 0, filename := "report.pdf".data, purpose := "assistants".data }

def fRecQ : FileRec := { fRec with attributes := .jobj attrsQuote }

def fmtD : Int → Str := fun _ => "2024-01-01".data

def csvTextOK : Str :=
  encodeRow ["File Name".data, "Attributes".data] ++ '\n' ::
  encodeRow ["f.pdf".data, stringifyV (.jobj attrsOK)]

def csvTextBad : Str :=
  encodeRow ["File Name".data, "Attributes".data] ++ '\n' ::
  encodeRow ["f.pdf".data, stringifyV (.jobj attrsOK)] ++ '\n' ::
  encodeRow ["g.pdf".data, stringifyV (.jobj attrsNoStatus)]

def csvText2 : Str :=
  encodeRow ["File Name".data, "Attributes".data] ++ '\n' ::
  encodeRow ["f.pdf".data, stringifyV (.jobj attrsOK)] ++ '\n' ::
  encodeRow ["nosuch.pdf".data, stringifyV (.jobj attrsOK)]

/-- A 17-key object (over the 16-key limit). -/
def big17 : JObj :=
  .ocons ("k01".data) (.jnum 1) (.ocons ("k02".data) (.jnum 2)
  (.ocons ("k03".data) (.jnum 3) (.ocons ("k04".data) (.jnum 4)
  (.ocons ("k05".data) (.jnum 5) (.ocons ("k06".data) (.jnum 6)
  (.ocons ("k07".data) (.jnum 7) (.ocons ("k08".data) (.jnum 8)
  (.ocons ("k09".data) (.jnum 9) (.ocons ("k10".data) (.jnum 10)
  (.ocons ("k11".data) (.jnum 11) (.ocons ("k12".data) (.jnum 12)
  (.ocons ("k13".data) (.jnum 13) (.ocons ("k14".data) (.jnum 14)
  (.ocons ("k15".data) (.jnum 15) (.ocons ("k16".data) (.jnum 16)
  (.ocons ("k17".data) (.jnum 17) .onil))))))))))))))))

def hdrLine : Str := encodeRow ["File Name".data, "Attributes".data]

def rowF : Str := encodeRow ["f.pdf".data, stringifyV (.jobj attrsOK)]

def rowG : Str := encodeRow ["g.pdf".data, stringifyV (.jobj attrsNoStatus)]

def saveInput : Str := "\x7b\"a\":1\x7d".data

def aVal : JValue := .jobj (.ocons ("a".data) (.jnum 1) .onil)

def csvTextNM : Str :=
  "Name,Meta".data ++ '\n' :: encodeRow ["f.pdf".data, stringifyV (.jobj attrsOK)]

/-!
## CSV encode/decode lemmas
-/

theorem joinSep_cons₂ (sep : Str) (x y : Str) (t : List Str) :
    joinSep sep (x :: y :: t) = x ++ sep ++ joinSep sep (y :: t) := rfl

theorem pAux_nil (inQ : Bool) (cell : Str) (acc : List Str) :
    parseCSVLineAux [] inQ cell acc = (trimChars cell.reverse :: acc).reverse := rfl

theorem pAux_esc (rest cell : Str) (acc : List Str) :
    parseCSVLineAux ('"' :: '"' :: rest) true cell acc
      = parseCSVLineAux rest true ('"' :: cell) acc := rfl

theorem pAux_close (rest cell : Str) (acc : List Str) (h : rest.head? ≠ some '"') :
    parseCSVLineAux ('"' :: rest) true cell acc = parseCSVLineAux rest false cell acc := by
  cases rest with
  | nil => rfl
  | cons r rs =>
    simp only [List.head?, ne_eq, Option.some.injEq] at h
    simp [parseCSVLineAux, h]

theorem pAux_open (rest cell : Str) (acc : List Str) :
    parseCSVLineAux ('"' :: rest) false cell acc = parseCSVLineAux rest true cell acc := by
  cases rest with
  | nil => rfl
  | cons r rs =>
    by_cases hr : r = '"'
    · subst hr; rfl
    · simp [parseCSVLineAux, hr]

theorem pAux_comma (rest cell : Str) (acc : List Str) :
    parseCSVLineAux (',' :: rest) false cell acc
      = parseCSVLineAux rest false [] (trimChars cell.reverse :: acc) := by
  simp [parseCSVLineAux]

theorem pAux_charT (c : Char) (rest cell : Str) (acc : List Str) (hq : c ≠ '"') :
    parseCSVLineAux (c :: rest) true cell acc = parseCSVLineAux rest true (c :: cell) acc := by
  simp [parseCSVLineAux, hq]

theorem pAux_charF (c : Char) (rest cell : Str) (acc : List Str) (hq : c ≠ '"') (hc : c ≠ ',') :
    parseCSVLineAux (c :: rest) false cell acc = parseCSVLineAux rest false (c :: cell) acc := by
  simp [parseCSVLineAux, hq, hc]

/-- Inside a quoted cell, the doubled-quote encoding of `c` is consumed up to
and including the closing quote, accumulating exactly `c`. -/
theorem pAux_escCell (c : Str) : ∀ (rest cell : Str) (acc : List Str),
    rest.head? ≠ some '"' →
    parseCSVLineAux (escQuotesCSV c ++ '"' :: rest) true cell acc
      = parseCSVLineAux rest false (c.reverse ++ cell) acc := by
  induction c with
  | nil => intro rest cell acc h; simpa using pAux_close rest cell acc h
  | cons ch c' ih =>
    intro rest cell acc h
    by_cases hch : ch = '"'
    · subst hch
      show parseCSVLineAux ('"' :: '"' :: (escQuotesCSV c' ++ '"' :: rest)) true cell acc = _
      rw [pAux_esc, ih rest ('"' :: cell) acc h]
      simp
    · have : escQuotesCSV (ch :: c') = ch :: escQuotesCSV c' := by
        simp [escQuotesCSV, hch]
      rw [this, List.cons_append, pAux_charT ch _ cell acc hch, ih rest (ch :: cell) acc h]
      simp

/-- A fully quoted cell is consumed from the out-of-quotes state. -/
theorem pAux_cell (c rest cell : Str) (acc : List Str) (h : rest.head? ≠ some '"') :
    parseCSVLineAux (quoteCell c ++ rest) false cell acc
      = parseCSVLineAux rest false (c.reverse ++ cell) acc := by
  show parseCSVLineAux ('"' :: (escQuotesCSV c ++ ['"'] ++ rest)) false cell acc = _
  rw [List.append_assoc]
  simp only [List.singleton_append]
  rw [pAux_open, pAux_escCell c rest cell acc h]

theorem pAux_joinCells : ∀ (cells : List Str) (acc : List Str), cells ≠ [] →
    parseCSVLineAux (joinSep [','] (cells.map quoteCell)) false [] acc
      = acc.reverse ++ cells.map trimChars := by
  intro cells
  induction cells with
  | nil => intro acc h; exact absurd rfl h
  | cons c cs ih =>
    intro acc _
    cases cs with
    | nil =>
      show parseCSVLineAux (quoteCell c) false [] acc = _
      have := pAux_cell c [] [] acc (by simp)
      simp only [List.append_nil] at this
      rw [this, pAux_nil]
      simp
    | cons c2 cs2 =>
      rw [List.map_cons, List.map_cons, joinSep_cons₂, List.append_assoc, List.singleton_append,
        pAux_cell c _ [] acc (by simp), pAux_comma]
      simp only [List.append_nil, List.reverse_reverse]
      simp only [List.map_cons] at ih
      rw [ih (trimChars c :: acc) (by simp)]
      simp

/-- The exporter's row encoding decodes to the original cells, each trimmed:
quoted commas do not split and doubled quotes decode to one quote. -/
theorem parseCSVLine_encodeRow (cells : List Str) (h : cells ≠ []) :
    parseCSVLine (encodeRow cells) = cells.map trimChars := by
  show parseCSVLineAux (joinSep [','] (cells.map quoteCell)) false [] [] = _
  rw [pAux_joinCells cells [] h]
  simp

/-!
## Line splitting and trim lemmas
-/

theorem splitAux_newline (l : Str) : ∀ (rest cur : Str), '\n' ∉ l → '\r' ∉ l →
    splitLinesAux (l ++ '\n' :: rest) cur = (cur.reverse ++ l) :: splitLinesAux rest [] := by
  induction l with
  | nil =>
    intro rest cur _ _
    simp [splitLinesAux]
  | cons ch l' ih =>
    intro rest cur hn hr
    have hch1 : ch ≠ '\n' := fun h => hn (h ▸ List.mem_cons_self ch l')
    have hch2 : ch ≠ '\r' := fun h => hr (h ▸ List.mem_cons_self ch l')
    have step : splitLinesAux ((ch :: l') ++ '\n' :: rest) cur
        = splitLinesAux (l' ++ '\n' :: rest) (ch :: cur) := by
      simp [splitLinesAux, hch1, hch2]
    rw [step, ih rest (ch :: cur) (fun h => hn (List.mem_cons_of_mem ch h))
      (fun h => hr (List.mem_cons_of_mem ch h))]
    simp

theorem splitAux_last (l : Str) : ∀ (cur : Str), '\n' ∉ l → '\r' ∉ l →
    splitLinesAux l cur = [cur.reverse ++ l] := by
  induction l with
  | nil => intro cur _ _; simp [splitLinesAux]
  | cons ch l' ih =>
    intro cur hn hr
    have hch1 : ch ≠ '\n' := fun h => hn (h ▸ List.mem_cons_self ch l')
    have hch2 : ch ≠ '\r' := fun h => hr (h ▸ List.mem_cons_self ch l')
    have step : splitLinesAux (ch :: l') cur = splitLinesAux l' (ch :: cur) := by
      simp [splitLinesAux, hch1, hch2]
    rw [step, ih (ch :: cur) (fun h => hn (List.mem_cons_of_mem ch h))
      (fun h => hr (List.mem_cons_of_mem ch h))]
    simp

theorem splitAux_join : ∀ (lines : List Str), lines ≠ [] →
    (∀ l ∈ lines, '\n' ∉ l ∧ '\r' ∉ l) →
    splitLinesAux (joinSep ['\n'] lines) [] = lines := by
  intro lines
  induction lines with
  | nil => intro h; exact absurd rfl h
  | cons x t ih =>
    intro _ hclean
    cases t with
    | nil =>
      show splitLinesAux x [] = [x]
      rw [splitAux_last x [] (hclean x (by simp)).1 (hclean x (by simp)).2]
      simp
    | cons y t2 =>
      rw [joinSep_cons₂, List.append_assoc, List.singleton_append,
        splitAux_newline x _ [] (hclean x (by simp)).1 (hclean x (by simp)).2,
        ih (by simp) (fun l hl => hclean l (List.mem_cons_of_mem x hl))]
      simp

theorem splitNonBlank_join (lines : List Str) (hne : lines ≠ [])
    (hclean : ∀ l ∈ lines, '\n' ∉ l ∧ '\r' ∉ l ∧ (trimChars l).isEmpty = false) :
    splitNonBlankLines (joinSep ['\n'] lines) = lines := by
  show (splitLinesAux (joinSep ['\n'] lines) []).filter _ = lines
  rw [splitAux_join lines hne (fun l hl => ⟨(hclean l hl).1, (hclean l hl).2.1⟩)]
  rw [List.filter_eq_self]
  intro l hl
  simp [(hclean l hl).2.2]

theorem dropWhile_eq_self_of_head (l : Str)
    (h : ∀ c, l.head? = some c → isWsChar c = false) : l.dropWhile isWsChar = l := by
  cases l with
  | nil => rfl
  | cons c t => simp [List.dropWhile_cons, h c rfl]

/-- A string whose first and last characters are not whitespace is unchanged
by `trim`. -/
theorem trimChars_eq_self (l : Str)
    (h1 : ∀ c, l.head? = some c → isWsChar c = false)
    (h2 : ∀ c, l.getLast? = some c → isWsChar c = false) : trimChars l = l := by
  show ((l.dropWhile isWsChar).reverse.dropWhile isWsChar).reverse = l
  rw [dropWhile_eq_self_of_head l h1,
    dropWhile_eq_self_of_head l.reverse (fun c hc => h2 c (by rwa [List.head?_reverse] at hc))]
  simp

/-- A string starting with a non-whitespace character does not trim to
empty. -/
theorem trim_nonEmpty_of_head (c : Char) (l : Str) (h : isWsChar c = false) :
    (trimChars (c :: l)).isEmpty = false := by
  show (((List.dropWhile isWsChar (c :: l)).reverse.dropWhile isWsChar).reverse).isEmpty = false
  rw [List.dropWhile_cons]
  simp only [h, Bool.false_eq_true, if_false]
  cases hd : List.dropWhile isWsChar (c :: l).reverse with
  | nil =>
    exfalso
    rw [List.dropWhile_eq_nil_iff] at hd
    have := hd c (by simp)
    rw [h] at this
    exact Bool.false_ne_true this
  | cons a t => simp [hd]

/-!
## Number rendering and parsing lemmas
-/

theorem ne_of_toNat_ne {c d : Char} (h : c.toNat ≠ d.toNat) : c ≠ d :=
  fun he => h (he ▸ rfl)

theorem isDigitChar_bounds {c : Char} (h : isDigitChar c = true) :
    48 ≤ c.toNat ∧ c.toNat ≤ 57 := by
  simp [isDigitChar] at h
  exact h

theorem digitChar_toNat {n : Nat} (h : n < 10) : (Char.ofNat (48 + n)).toNat = 48 + n := by
  interval_cases n <;> decide

theorem digitChar_isDigit {n : Nat} (h : n < 10) : isDigitChar (Char.ofNat (48 + n)) = true := by
  interval_cases n <;> decide

theorem natDigitsAux_spec : ∀ (fuel n : Nat), n < fuel →
    natDigitsAux fuel n ≠ [] ∧ (∀ c ∈ natDigitsAux fuel n, isDigitChar c = true) ∧
    ∀ a : Nat, List.foldl (fun a c => a * 10 + (c.toNat - 48)) a (natDigitsAux fuel n)
      = a * 10 ^ (natDigitsAux fuel n).length + n := by
  intro fuel
  induction fuel with
  | zero => intro n h; omega
  | succ f ih =>
    intro n h
    by_cases h10 : n < 10
    · have heq : natDigitsAux (f + 1) n = [Char.ofNat (48 + n)] := by
        simp [natDigitsAux, h10]
      refine ⟨by simp [heq], ?_, ?_⟩
      · intro c hc
        rw [heq] at hc
        simp at hc
        subst hc
        exact digitChar_isDigit h10
      · intro a
        rw [heq]
        simp [digitChar_toNat h10]
    · have hrec : n / 10 < f := by omega
      have heq : natDigitsAux (f + 1) n
          = natDigitsAux f (n / 10) ++ [Char.ofNat (48 + n % 10)] := by
        simp [natDigitsAux, h10]
      obtain ⟨hne, hdig, hval⟩ := ih (n / 10) hrec
      have hm10 : n % 10 < 10 := Nat.mod_lt _ (by norm_num)
      refine ⟨by simp [heq], ?_, ?_⟩
      · intro c hc
        rw [heq] at hc
        rcases List.mem_append.mp hc with h1 | h2
        · exact hdig c h1
        · simp at h2
          subst h2
          exact digitChar_isDigit hm10
      · intro a
        rw [heq, List.foldl_append]
        simp only [List.foldl_cons, List.foldl_nil, List.length_append, List.length_cons,
          List.length_nil]
        rw [hval a, digitChar_toNat hm10]
        have : a * 10 ^ (List.length (natDigitsAux f (n / 10)) + (0 + 1))
            = a * 10 ^ (List.length (natDigitsAux f (n / 10))) * 10 := by ring
        rw [this]
        omega

theorem natDigits_nonEmpty (n : Nat) : natDigits n ≠ [] :=
  (natDigitsAux_spec (n + 1) n (by omega)).1

theorem natDigits_allDigits (n : Nat) : ∀ c ∈ natDigits n, isDigitChar c = true :=
  (natDigitsAux_spec (n + 1) n (by omega)).2.1

theorem digitsToNat_natDigits (n : Nat) : digitsToNat (natDigits n) = n := by
  have h := (natDigitsAux_spec (n + 1) n (by omega)).2.2 0
  simpa [digitsToNat, natDigits] using h

theorem takeWhile_digits (ds : Str) : ∀ rest : Str,
    (∀ c ∈ ds, isDigitChar c = true) → numDelim rest →
    (ds ++ rest).takeWhile isDigitChar = ds ∧ (ds ++ rest).dropWhile isDigitChar = rest := by
  induction ds with
  | nil =>
    intro rest _ hrest
    cases rest with
    | nil => simp
    | cons r rs =>
      have hr := hrest r rfl
      simp [List.takeWhile_cons, List.dropWhile_cons, hr]
  | cons d ds' ih =>
    intro rest hds hrest
    have hd : isDigitChar d = true := hds d (by simp)
    obtain ⟨h1, h2⟩ := ih rest (fun c hc => hds c (List.mem_cons_of_mem d hc)) hrest
    constructor
    · simp [List.takeWhile_cons, hd, h1]
    · simp [List.dropWhile_cons, hd, h2]

theorem digit_ne_minus {c : Char} (h : isDigitChar c = true) : c ≠ '-' := by
  have hb := isDigitChar_bounds h
  have h45 : ('-' : Char).toNat = 45 := rfl
  exact ne_of_toNat_ne (by omega)

theorem parseNumber_intToChars (n : Int) (rest : Str) (hrest : numDelim rest) :
    parseNumber (intToChars n ++ rest) = some (.jnum n, rest) := by
  by_cases hn : n < 0
  · have heq : intToChars n = '-' :: natDigits n.natAbs := by simp [intToChars, hn]
    rw [heq]
    obtain ⟨htake, hdrop⟩ := takeWhile_digits (natDigits n.natAbs) rest
      (natDigits_allDigits _) hrest
    have hne := natDigits_nonEmpty n.natAbs
    simp only [parseNumber, List.cons_append, List.head?_cons, List.tail_cons, htake, hdrop,
      if_true]
    rw [if_neg (by simpa using hne), digitsToNat_natDigits]
    have habs : -(n.natAbs : Int) = n := by omega
    rw [habs]
  · have heq : intToChars n = natDigits n.toNat := by simp [intToChars, hn]
    rw [heq]
    obtain ⟨htake, hdrop⟩ := takeWhile_digits (natDigits n.toNat) rest
      (natDigits_allDigits _) hrest
    have hne := natDigits_nonEmpty n.toNat
    obtain ⟨d, ds', hds⟩ : ∃ d ds', natDigits n.toNat = d :: ds' := by
      cases h : natDigits n.toNat with
      | nil => exact absurd h hne
      | cons a b => exact ⟨a, b, rfl⟩
    have hd : isDigitChar d = true := by
      have hall := natDigits_allDigits n.toNat
      rw [hds] at hall
      exact hall d (by simp)
    have hhead : (natDigits n.toNat ++ rest).head? = some d := by rw [hds]; simp
    simp only [parseNumber, hhead, Option.some.injEq]
    rw [if_neg (by exact fun hcon => digit_ne_minus hd hcon)]
    rw [htake, if_neg (by simpa using hne), hdrop, digitsToNat_natDigits]
    have hcast : (n.toNat : Int) = n := by omega
    rw [hcast]

/-!
## String escaping and serialization character classes
-/

theorem plainChar_facts {c : Char} (h : plainChar c = true) :
    c ≠ '"' ∧ c ≠ '\\' ∧ 32 ≤ c.toNat := by
  simp [plainChar] at h
  exact ⟨h.1.1, h.1.2, h.2⟩

theorem escapeJSONChar_plain {c : Char} (h : plainChar c = true) : escapeJSONChar c = [c] := by
  obtain ⟨h1, h2, h3⟩ := plainChar_facts h
  have hn : c ≠ '\n' := ne_of_toNat_ne (by have : ('\n' : Char).toNat = 10 := rfl; omega)
  have hr : c ≠ '\r' := ne_of_toNat_ne (by have : ('\r' : Char).toNat = 13 := rfl; omega)
  have ht : c ≠ '\t' := ne_of_toNat_ne (by have : ('\t' : Char).toNat = 9 := rfl; omega)
  have hb : c ≠ '\x08' := ne_of_toNat_ne (by have : ('\x08' : Char).toNat = 8 := rfl; omega)
  have hf : c ≠ '\x0c' := ne_of_toNat_ne (by have : ('\x0c' : Char).toNat = 12 := rfl; omega)
  simp [escapeJSONChar, h1, h2, hn, hr, ht, hb, hf, Nat.not_lt.mpr h3]

theorem escStrBody_plain (s : Str) (h : plainStr s = true) : escStrBody s = s := by
  induction s with
  | nil => rfl
  | cons c t ih =>
    have hc : plainChar c = true := by
      simp [plainStr] at h
      exact h.1
    have ht : plainStr t = true := by
      simp [plainStr] at h ⊢
      exact h.2
    show escapeJSONChar c ++ escStrBody t = c :: t
    rw [escapeJSONChar_plain hc, ih ht]
    rfl

theorem parseStringBody_plain (s : Str) : ∀ rest : Str, plainStr s = true →
    parseStringBody (s ++ '"' :: rest) = some (s, rest) := by
  induction s with
  | nil =>
    intro rest _
    show parseStringBody ('"' :: rest) = some ([], rest)
    rw [parseStringBody.eq_def]
    simp
  | cons c t ih =>
    intro rest h
    have hc : plainChar c = true := by simp [plainStr] at h; exact h.1
    have htl : plainStr t = true := by simp [plainStr] at h ⊢; exact h.2
    obtain ⟨h1, h2, h3⟩ := plainChar_facts hc
    show parseStringBody (c :: (t ++ '"' :: rest)) = some (c :: t, rest)
    rw [parseStringBody.eq_def]
    simp [h1, h2, Nat.not_lt.mpr h3, ih rest htl]

/-- The head character of any serialized value. -/
theorem stringify_head (v : JValue) : ∃ c t, stringifyV v = c :: t ∧ headKind c := by
  cases v with
  | jnull => exact ⟨'n', _, rfl, Or.inl rfl⟩
  | jbool b =>
    cases b with
    | true => exact ⟨'t', _, rfl, Or.inr (Or.inl rfl)⟩
    | false => exact ⟨'f', _, rfl, Or.inr (Or.inr (Or.inl rfl))⟩
  | jnum n =>
    by_cases hn : n < 0
    · refine ⟨'-', natDigits n.natAbs, ?_, ?_⟩
      · show intToChars n = _
        simp [intToChars, hn]
      · simp [headKind]
    · have hne := natDigits_nonEmpty n.toNat
      obtain ⟨d, ds', hds⟩ : ∃ d ds', natDigits n.toNat = d :: ds' := by
        cases h : natDigits n.toNat with
        | nil => exact absurd h hne
        | cons a b => exact ⟨a, b, rfl⟩
      have hd : isDigitChar d = true := by
        have hall := natDigits_allDigits n.toNat
        rw [hds] at hall
        exact hall d (by simp)
      refine ⟨d, ds', ?_, ?_⟩
      · show intToChars n = _
        simp [intToChars, hn, hds]
      · simp [headKind, hd]
  | jstr s => exact ⟨'"', _, rfl, by simp [headKind]⟩
  | jarr xs => exact ⟨'[', _, rfl, by simp [headKind]⟩
  | jobj m => exact ⟨'{', _, rfl, by simp [headKind]⟩

theorem headKind_facts {c : Char} (h : headKind c) :
    isWsChar c = false ∧ c ≠ ']' ∧ c ≠ '}' := by
  rcases h with h | h | h | h | h | h | h | h
  all_goals (try (subst h; exact ⟨by decide, by decide, by decide⟩))
  have hb := isDigitChar_bounds h
  refine ⟨?_, ?_, ?_⟩
  · have h32 : (' ' : Char).toNat = 32 := rfl
    have h9 : ('\t' : Char).toNat = 9 := rfl
    have h10 : ('\n' : Char).toNat = 10 := rfl
    have h13 : ('\r' : Char).toNat = 13 := rfl
    simp only [isWsChar, Bool.or_eq_false_iff]
    refine ⟨⟨⟨?_, ?_⟩, ?_⟩, ?_⟩ <;>
      · simp only [decide_eq_false_iff_not]
        exact ne_of_toNat_ne (by omega)
  · exact ne_of_toNat_ne (by have : (']' : Char).toNat = 93 := rfl; omega)
  · exact ne_of_toNat_ne (by have : ('}' : Char).toNat = 125 := rfl; omega)

theorem skipWs_cons {c : Char} (t : Str) (h : isWsChar c = false) :
    skipWs (c :: t) = c :: t := by
  simp [skipWs, List.dropWhile_cons, h]

theorem skipWs_stringify (v : JValue) (rest : Str) :
    skipWs (stringifyV v ++ rest) = stringifyV v ++ rest := by
  obtain ⟨c, t, hct, hk⟩ := stringify_head v
  rw [hct]
  exact skipWs_cons _ (headKind_facts hk).1

theorem oappend_onil : ∀ m : JObj, oappend m .onil = m
  | .onil => rfl
  | .ocons k v r => by rw [oappend, oappend_onil r]

theorem oappend_assoc : ∀ a b c : JObj, oappend (oappend a b) c = oappend a (oappend b c)
  | .onil, _, _ => rfl
  | .ocons k v r, b, c => by rw [oappend, oappend, oappend, oappend_assoc r b c]

theorem lookup_none_iff_not_mem_keys : ∀ (m : JObj) (k : Str),
    m.lookup k = none ↔ k ∉ m.keys
  | .onil, k => by simp [JObj.lookup, JObj.keys]
  | .ocons k' v r, k => by
    rw [JObj.lookup, JObj.keys]
    by_cases h : k' = k
    · subst h
      simp
    · simp only [h, if_false, lookup_none_iff_not_mem_keys r k, List.mem_cons]
      constructor
      · intro hn hc
        rcases hc with hc | hc
        · exact h hc.symm
        · exact hn hc
      · intro hn
        exact fun hc => hn (Or.inr hc)

theorem insert_not_present : ∀ (m : JObj) (k : Str) (v : JValue),
    m.lookup k = none → m.insert k v = oappend m (.ocons k v .onil)
  | .onil, k, v, _ => rfl
  | .ocons k' v' r, k, v, h => by
    rw [JObj.lookup] at h
    by_cases hk : k' = k
    · subst hk
      simp at h
    · rw [JObj.insert, if_neg hk, oappend, insert_not_present r k v (by simpa [hk] using h)]

theorem lookup_oappend_none : ∀ (a b : JObj) (k : Str),
    a.lookup k = none → b.lookup k = none → (oappend a b).lookup k = none
  | .onil, _, _, _, hb => hb
  | .ocons k' v r, b, k, ha, hb => by
    rw [JObj.lookup] at ha
    by_cases hk : k' = k
    · subst hk
      simp at ha
    · rw [oappend, JObj.lookup, if_neg hk]
      exact lookup_oappend_none r b k (by simpa [hk] using ha) hb

theorem foldIns_gen : ∀ (m : JObj) (acc : JObj), dkObj m = true →
    (∀ key ∈ m.keys, acc.lookup key = none) →
    (objToPairs m).foldl (fun o kv => o.insert kv.1 kv.2) acc = oappend acc m
  | .onil, acc, _, _ => (oappend_onil acc).symm
  | .ocons k v r, acc, hdk, hkeys => by
    have hparts : (r.lookup k = none ∧ dkV v = true) ∧ dkObj r = true := by
      rw [dkObj] at hdk
      simpa using hdk
    have hacc : acc.lookup k = none := hkeys k (by rw [JObj.keys]; simp)
    rw [objToPairs, List.foldl_cons]
    have hins : acc.insert k v = oappend acc (.ocons k v .onil) := insert_not_present acc k v hacc
    rw [hins, foldIns_gen r (oappend acc (.ocons k v .onil)) hparts.2 ?hk]
    · rw [oappend_assoc]
      rfl
    case hk =>
      intro key hkey
      have h1 : acc.lookup key = none := hkeys key (by rw [JObj.keys]; exact List.mem_cons_of_mem _ hkey)
      have hkne : k ≠ key := by
        intro he
        subst he
        have := (lookup_none_iff_not_mem_keys r k).mp hparts.1.1
        exact this hkey
      refine lookup_oappend_none acc _ key h1 ?_
      rw [JObj.lookup, if_neg hkne]
      rfl

theorem foldIns_objToPairs (m : JObj) (h : dkObj m = true) : foldIns (objToPairs m) = m := by
  show (objToPairs m).foldl _ .onil = m
  rw [foldIns_gen m .onil h (fun key _ => rfl)]
  rfl

theorem listToJArr_arrToList : ∀ xs : JArr, listToJArr (arrToList xs) = xs
  | .anil => rfl
  | .acons v r => by rw [arrToList, listToJArr, listToJArr_arrToList r]

theorem stringify_ne_nil (v : JValue) : stringifyV v ≠ [] := by
  obtain ⟨c, t, hct, _⟩ := stringify_head v
  rw [hct]
  simp

theorem stringify_length_pos (v : JValue) : 1 ≤ (stringifyV v).length := by
  obtain ⟨c, t, hct, _⟩ := stringify_head v
  rw [hct]
  simp

/-!
## Characters of serialized plain values
-/

theorem charOK_of_plain {c : Char} (h : plainChar c = true) : charOK c := by
  obtain ⟨h1, h2, h3⟩ := plainChar_facts h
  exact ⟨h2, ne_of_toNat_ne (by have : ('\n' : Char).toNat = 10 := rfl; omega),
    ne_of_toNat_ne (by have : ('\r' : Char).toNat = 13 := rfl; omega)⟩

theorem charOK_of_digit {c : Char} (h : isDigitChar c = true) : charOK c := by
  have hb := isDigitChar_bounds h
  refine ⟨?_, ?_, ?_⟩
  · exact ne_of_toNat_ne (by have : ('\\' : Char).toNat = 92 := rfl; omega)
  · exact ne_of_toNat_ne (by have : ('\n' : Char).toNat = 10 := rfl; omega)
  · exact ne_of_toNat_ne (by have : ('\r' : Char).toNat = 13 := rfl; omega)

theorem intToChars_charOK (n : Int) : ∀ c ∈ intToChars n, charOK c := by
  intro c hc
  rw [intToChars] at hc
  by_cases hn : n < 0
  · rw [if_pos hn] at hc
    rcases List.mem_cons.mp hc with h | h
    · subst h
      exact ⟨by decide, by decide, by decide⟩
    · exact charOK_of_digit (natDigits_allDigits _ c h)
  · rw [if_neg hn] at hc
    exact charOK_of_digit (natDigits_allDigits _ c hc)

theorem escStr_charOK (s : Str) (h : plainStr s = true) : ∀ c ∈ escStr s, charOK c := by
  intro c hc
  rw [escStr, escStrBody_plain s h] at hc
  rcases List.mem_cons.mp hc with h1 | h1
  · subst h1
    exact ⟨by decide, by decide, by decide⟩
  · rcases List.mem_append.mp h1 with h2 | h2
    · have : plainChar c = true := by
        rw [plainStr] at h
        exact List.all_eq_true.mp h c h2
      exact charOK_of_plain this
    · simp at h2
      subst h2
      exact ⟨by decide, by decide, by decide⟩

mutual
theorem strCharsV : ∀ v : JValue, plainV v = true → ∀ c ∈ stringifyV v, charOK c
  | .jnull => by
    intro _ c hc
    rw [stringifyV] at hc
    simp only [List.mem_cons, List.not_mem_nil, or_false] at hc
    rcases hc with rfl | rfl | rfl | rfl <;> exact ⟨by decide, by decide, by decide⟩
  | .jbool true => by
    intro _ c hc
    rw [stringifyV] at hc
    simp only [List.mem_cons, List.not_mem_nil, or_false] at hc
    rcases hc with rfl | rfl | rfl | rfl <;> exact ⟨by decide, by decide, by decide⟩
  | .jbool false => by
    intro _ c hc
    rw [stringifyV] at hc
    simp only [List.mem_cons, List.not_mem_nil, or_false] at hc
    rcases hc with rfl | rfl | rfl | rfl | rfl <;> exact ⟨by decide, by decide, by decide⟩
  | .jnum n => fun _ c hc => intToChars_charOK n c hc
  | .jstr s => fun h c hc => escStr_charOK s (by simpa [plainV] using h) c hc
  | .jarr xs => by
    intro h c hc
    have hd : c = '[' ∨ c ∈ stringifyArr xs ∨ c = ']' := by
      rw [stringifyV] at hc
      simp only [List.mem_append, List.mem_cons, List.mem_singleton] at hc
      tauto
    rcases hd with h1 | h1 | h1
    · subst h1; exact ⟨by decide, by decide, by decide⟩
    · exact strCharsA xs (by simpa [plainV] using h) c h1
    · subst h1; exact ⟨by decide, by decide, by decide⟩
  | .jobj m => by
    intro h c hc
    have hd : c = '{' ∨ c ∈ stringifyObj m ∨ c = '}' := by
      rw [stringifyV] at hc
      simp only [List.mem_append, List.mem_cons, List.mem_singleton] at hc
      tauto
    rcases hd with h1 | h1 | h1
    · subst h1; exact ⟨by decide, by decide, by decide⟩
    · exact strCharsO m (by simpa [plainV] using h) c h1
    · subst h1; exact ⟨by decide, by decide, by decide⟩
theorem strCharsA : ∀ xs : JArr, plainArr xs = true → ∀ c ∈ stringifyArr xs, charOK c
  | .anil => by intro _ c hc; simp [stringifyArr] at hc
  | .acons v r => by
    intro h c hc
    obtain ⟨hv, hr⟩ : plainV v = true ∧ plainArr r = true := by
      rw [plainArr] at h; simpa using h
    have hd : c ∈ stringifyV v ∨ c ∈ stringifyArrRest r := by
      rw [stringifyArr] at hc
      simp only [List.mem_append] at hc
      tauto
    rcases hd with h1 | h1
    · exact strCharsV v hv c h1
    · exact strCharsAR r hr c h1
theorem strCharsAR : ∀ xs : JArr, plainArr xs = true → ∀ c ∈ stringifyArrRest xs, charOK c
  | .anil => by intro _ c hc; simp [stringifyArrRest] at hc
  | .acons v r => by
    intro h c hc
    obtain ⟨hv, hr⟩ : plainV v = true ∧ plainArr r = true := by
      rw [plainArr] at h; simpa using h
    have hd : c = ',' ∨ c ∈ stringifyV v ∨ c ∈ stringifyArrRest r := by
      rw [stringifyArrRest] at hc
      simp only [List.mem_append, List.mem_cons] at hc
      tauto
    rcases hd with h1 | h1 | h1
    · subst h1; exact ⟨by decide, by decide, by decide⟩
    · exact strCharsV v hv c h1
    · exact strCharsAR r hr c h1
theorem strCharsO : ∀ m : JObj, plainObj m = true → ∀ c ∈ stringifyObj m, charOK c
  | .onil => by intro _ c hc; simp [stringifyObj] at hc
  | .ocons k v r => by
    intro h c hc
    obtain ⟨⟨hk, hv⟩, hr⟩ : (plainStr k = true ∧ plainV v = true) ∧ plainObj r = true := by
      rw [plainObj] at h; simpa using h
    have hd : c ∈ escStr k ∨ c = ':' ∨ c ∈ stringifyV v ∨ c ∈ stringifyObjRest r := by
      rw [stringifyObj] at hc
      simp only [List.mem_append, List.mem_cons] at hc
      tauto
    rcases hd with h1 | h1 | h1 | h1
    · exact escStr_charOK k hk c h1
    · subst h1; exact ⟨by decide, by decide, by decide⟩
    · exact strCharsV v hv c h1
    · exact strCharsOR r hr c h1
theorem strCharsOR : ∀ m : JObj, plainObj m = true → ∀ c ∈ stringifyObjRest m, charOK c
  | .onil => by intro _ c hc; simp [stringifyObjRest] at hc
  | .ocons k v r => by
    intro h c hc
    obtain ⟨⟨hk, hv⟩, hr⟩ : (plainStr k = true ∧ plainV v = true) ∧ plainObj r = true := by
      rw [plainObj] at h; simpa using h
    have hd : c = ',' ∨ c ∈ escStr k ∨ c = ':' ∨ c ∈ stringifyV v ∨ c ∈ stringifyObjRest r := by
      rw [stringifyObjRest] at hc
      simp only [List.mem_append, List.mem_cons] at hc
      tauto
    rcases hd with h1 | h1 | h1 | h1 | h1
    · subst h1; exact ⟨by decide, by decide, by decide⟩
    · exact escStr_charOK k hk c h1
    · subst h1; exact ⟨by decide, by decide, by decide⟩
    · exact strCharsV v hv c h1
    · exact strCharsOR r hr c h1
end

/-!
## Parser round trip on serialized plain values
-/

theorem intToChars_head (n : Int) :
    ∃ c t, intToChars n = c :: t ∧ (c = '-' ∨ isDigitChar c = true) := by
  by_cases hn : n < 0
  · exact ⟨'-', natDigits n.natAbs, by simp [intToChars, hn], Or.inl rfl⟩
  · have hne := natDigits_nonEmpty n.toNat
    obtain ⟨d, ds', hds⟩ : ∃ d ds', natDigits n.toNat = d :: ds' := by
      cases h : natDigits n.toNat with
      | nil => exact absurd h hne
      | cons a b => exact ⟨a, b, rfl⟩
    have hd : isDigitChar d = true := by
      have hall := natDigits_allDigits n.toNat
      rw [hds] at hall
      exact hall d (by simp)
    exact ⟨d, ds', by simp [intToChars, hn, hds], Or.inr hd⟩

theorem numHead_facts {c : Char} (h : c = '-' ∨ isDigitChar c = true) :
    c ≠ '"' ∧ c ≠ '[' ∧ c ≠ '{' ∧ c ≠ 'n' ∧ c ≠ 't' ∧ c ≠ 'f' ∧ isWsChar c = false := by
  rcases h with h | h
  · subst h
    exact ⟨by decide, by decide, by decide, by decide, by decide, by decide, by decide⟩
  · have hb := isDigitChar_bounds h
    have hws : isWsChar c = false := by
      have h32 : (' ' : Char).toNat = 32 := rfl
      have h9 : ('\t' : Char).toNat = 9 := rfl
      have h10 : ('\n' : Char).toNat = 10 := rfl
      have h13 : ('\r' : Char).toNat = 13 := rfl
      simp only [isWsChar, Bool.or_eq_false_iff]
      refine ⟨⟨⟨?_, ?_⟩, ?_⟩, ?_⟩ <;>
        · simp only [decide_eq_false_iff_not]
          exact ne_of_toNat_ne (by omega)
    refine ⟨?_, ?_, ?_, ?_, ?_, ?_, hws⟩ <;>
      exact ne_of_toNat_ne (by
        first
        | (have : ('"' : Char).toNat = 34 := rfl; omega)
        | (have : ('[' : Char).toNat = 91 := rfl; omega)
        | (have : ('{' : Char).toNat = 123 := rfl; omega)
        | (have : ('n' : Char).toNat = 110 := rfl; omega)
        | (have : ('t' : Char).toNat = 116 := rfl; omega)
        | (have : ('f' : Char).toNat = 102 := rfl; omega))

theorem isPrefixOf_cons_ne {a b : Char} (as bs : Str) (h : a ≠ b) :
    List.isPrefixOf (a :: as) (b :: bs) = false := by
  simp [List.isPrefixOf, h]

theorem RT_main : ∀ fuel : Nat,
    (∀ (v : JValue) (rest : Str), plainV v = true → dkV v = true → numDelim rest →
      (stringifyV v).length < fuel →
      parseValueA fuel (stringifyV v ++ rest) = some (v, rest)) ∧
    (∀ (v : JValue) (xs : JArr) (rest : Str),
      plainV v = true → dkV v = true → plainArr xs = true → dkArr xs = true →
      (stringifyV v).length + (stringifyArrRest xs).length + 1 < fuel →
      parseArrElems fuel (stringifyV v ++ stringifyArrRest xs ++ ']' :: rest)
        = some (v :: arrToList xs, rest)) ∧
    (∀ (k : Str) (v : JValue) (m : JObj) (rest : Str),
      plainStr k = true → plainV v = true → dkV v = true → plainObj m = true → dkObj m = true →
      (escStr k).length + (stringifyV v).length + (stringifyObjRest m).length + 2 < fuel →
      parseObjFields fuel (escStr k ++ ':' :: stringifyV v ++ stringifyObjRest m ++ '}' :: rest)
        = some ((k, v) :: objToPairs m, rest)) := by
  intro fuel
  induction fuel with
  | zero =>
    refine ⟨fun v rest _ _ _ h => absurd h (by omega),
      fun v xs rest _ _ _ _ h => absurd h (by omega),
      fun k v m rest _ _ _ _ _ h => absurd h (by omega)⟩
  | succ f ih =>
    obtain ⟨ihV, ihA, ihO⟩ := ih
    refine ⟨?_, ?_, ?_⟩
    · -- values
      intro v rest hp hd hnd hlen
      cases v with
      | jnull =>
        rw [stringifyV]
        show parseValueA (f + 1) ('n' :: 'u' :: 'l' :: 'l' :: rest) = _
        simp [parseValueA, skipWs, List.dropWhile, isWsChar, List.isPrefixOf,
          List.cons_prefix_cons, List.nil_prefix]
      | jbool b =>
        cases b with
        | true =>
          rw [stringifyV]
          show parseValueA (f + 1) ('t' :: 'r' :: 'u' :: 'e' :: rest) = _
          simp [parseValueA, skipWs, List.dropWhile, isWsChar, List.isPrefixOf,
            List.cons_prefix_cons, List.nil_prefix]
        | false =>
          rw [stringifyV]
          show parseValueA (f + 1) ('f' :: 'a' :: 'l' :: 's' :: 'e' :: rest) = _
          simp [parseValueA, skipWs, List.dropWhile, isWsChar, List.isPrefixOf,
            List.cons_prefix_cons, List.nil_prefix]
      | jnum n =>
        obtain ⟨c, t, hct, hck⟩ := intToChars_head n
        obtain ⟨hq, hbr, hbc, hn, ht, hf, hws⟩ := numHead_facts hck
        have hshape : stringifyV (.jnum n) ++ rest = c :: (t ++ rest) := by
          rw [stringifyV, hct]
          simp
        rw [hshape]
        have hback : c :: (t ++ rest) = intToChars n ++ rest := by
          rw [hct]
          simp
        simp only [parseValueA, skipWs, List.dropWhile_cons, hws, Bool.false_eq_true, if_false]
        rw [if_neg hq, if_neg hbr, if_neg hbc]
        rw [if_neg (by simp [isPrefixOf_cons_ne _ _ (fun he => hn he.symm)]),
          if_neg (by simp [isPrefixOf_cons_ne _ _ (fun he => ht he.symm)]),
          if_neg (by simp [isPrefixOf_cons_ne _ _ (fun he => hf he.symm)])]
        rw [hback]
        exact parseNumber_intToChars n rest hnd
      | jstr s =>
        have hp' : plainStr s = true := by simpa [plainV] using hp
        have hs : stringifyV (.jstr s) ++ rest = '"' :: (s ++ '"' :: rest) := by
          rw [stringifyV, escStr, escStrBody_plain s hp']
          simp
        rw [hs]
        simp [parseValueA, skipWs, List.dropWhile, isWsChar, parseStringBody_plain s rest hp']
      | jarr xs =>
        cases xs with
        | anil =>
          have hs : stringifyV (.jarr .anil) ++ rest = '[' :: ']' :: rest := rfl
          rw [hs]
          simp [parseValueA, skipWs, List.dropWhile, isWsChar]
        | acons w ws =>
          obtain ⟨hpw, hpws⟩ : plainV w = true ∧ plainArr ws = true := by
            rw [plainV, plainArr] at hp
            simpa using hp
          obtain ⟨hdw, hdws⟩ : dkV w = true ∧ dkArr ws = true := by
            rw [dkV, dkArr] at hd
            simpa using hd
          have hshape : stringifyV (.jarr (.acons w ws)) ++ rest
              = '[' :: (stringifyV w ++ stringifyArrRest ws ++ ']' :: rest) := by
            rw [stringifyV, stringifyArr]
            simp
          rw [hshape]
          obtain ⟨c, t, hct, hk⟩ := stringify_head w
          obtain ⟨hcws, hcrb, hccb⟩ := headKind_facts hk
          have hlen' : (stringifyV w).length + (stringifyArrRest ws).length + 1 < f := by
            rw [stringifyV, stringifyArr] at hlen
            simp only [List.length_cons, List.length_append, List.length_nil] at hlen
            omega
          have harr := ihA w ws rest hpw hdw hpws hdws hlen'
          have hsk : List.dropWhile isWsChar (stringifyV w ++ stringifyArrRest ws ++ ']' :: rest)
              = stringifyV w ++ stringifyArrRest ws ++ ']' :: rest := by
            rw [hct]
            simp only [List.cons_append, List.dropWhile_cons, hcws, Bool.false_eq_true, if_false]
          have hhd : (stringifyV w ++ stringifyArrRest ws ++ ']' :: rest).head? = some c := by
            rw [hct]
            simp
          simp only [parseValueA]
          rw [show skipWs ('[' :: (stringifyV w ++ stringifyArrRest ws ++ ']' :: rest))
            = '[' :: (stringifyV w ++ stringifyArrRest ws ++ ']' :: rest) from
            skipWs_cons _ (by decide)]
          simp only [List.append_assoc] at hsk hhd harr
          simp [skipWs, hsk, hhd, hcrb, harr, listToJArr, listToJArr_arrToList]
      | jobj m =>
        cases m with
        | onil =>
          have hs : stringifyV (.jobj .onil) ++ rest = '{' :: '}' :: rest := rfl
          rw [hs]
          simp [parseValueA, skipWs, List.dropWhile, isWsChar]
        | ocons k w m2 =>
          have hobjall : dkObj (.ocons k w m2) = true := by rw [dkV] at hd; exact hd
          obtain ⟨⟨hk2, hpw⟩, hpm⟩ :
              (plainStr k = true ∧ plainV w = true) ∧ plainObj m2 = true := by
            rw [plainV, plainObj] at hp
            simpa using hp
          obtain ⟨⟨hlk, hdw⟩, hdm⟩ :
              (JObj.lookup m2 k = none ∧ dkV w = true) ∧ dkObj m2 = true := by
            rw [dkV, dkObj] at hd
            simpa using hd
          have hshape : stringifyV (.jobj (.ocons k w m2)) ++ rest
              = '{' :: (escStr k ++ ':' :: stringifyV w ++ stringifyObjRest m2 ++ '}' :: rest) := by
            rw [stringifyV, stringifyObj]
            simp
          rw [hshape]
          have hlen' : (escStr k).length + (stringifyV w).length
              + (stringifyObjRest m2).length + 2 < f := by
            rw [stringifyV, stringifyObj] at hlen
            simp only [List.length_cons, List.length_append, List.length_nil] at hlen
            omega
          have hobj := ihO k w m2 rest hk2 hpw hdw hpm hdm hlen'
          have hskshape : escStr k ++ ':' :: stringifyV w ++ stringifyObjRest m2 ++ '}' :: rest
              = '"' :: (escStrBody k ++ ['"'] ++ (':' :: stringifyV w ++ stringifyObjRest m2 ++ '}' :: rest)) := by
            rw [escStr]
            simp
          have hsk : List.dropWhile isWsChar
                (escStr k ++ ':' :: stringifyV w ++ stringifyObjRest m2 ++ '}' :: rest)
              = escStr k ++ ':' :: stringifyV w ++ stringifyObjRest m2 ++ '}' :: rest := by
            rw [hskshape]
            simp only [List.dropWhile_cons]
            simp [isWsChar]
          have hhd : (escStr k ++ ':' :: stringifyV w ++ stringifyObjRest m2 ++ '}' :: rest).head?
              = some '"' := by
            rw [hskshape]
            simp
          simp only [parseValueA]
          rw [show skipWs ('{' :: (escStr k ++ ':' :: stringifyV w ++ stringifyObjRest m2 ++ '}' :: rest))
            = '{' :: (escStr k ++ ':' :: stringifyV w ++ stringifyObjRest m2 ++ '}' :: rest) from
            skipWs_cons _ (by decide)]
          simp only [List.cons_append, List.append_assoc] at hobj hsk hhd
          simp [skipWs, hsk, hhd, hobj]
          rw [show ((k, w) :: objToPairs m2) = objToPairs (.ocons k w m2) from rfl,
            foldIns_objToPairs _ hobjall]
    · -- array elements
      intro v xs rest hp hd hpxs hdxs hlen
      have hndx : numDelim (stringifyArrRest xs ++ ']' :: rest) := by
        cases xs with
        | anil =>
          intro c hc
          rw [stringifyArrRest] at hc
          simp at hc
          rw [← hc]
          decide
        | acons w2 ws2 =>
          intro c hc
          rw [stringifyArrRest] at hc
          simp at hc
          rw [← hc]
          decide
      have hlenv : (stringifyV v).length < f := by omega
      have hval := ihV v (stringifyArrRest xs ++ ']' :: rest) hp hd hndx hlenv
      simp only [parseArrElems]
      rw [List.append_assoc, hval]
      cases xs with
      | anil =>
        rw [stringifyArrRest]
        simp [skipWs, List.dropWhile, isWsChar, arrToList]
      | acons w2 ws2 =>
        obtain ⟨hpw2, hpws2⟩ : plainV w2 = true ∧ plainArr ws2 = true := by
          rw [plainArr] at hpxs
          simpa using hpxs
        obtain ⟨hdw2, hdws2⟩ : dkV w2 = true ∧ dkArr ws2 = true := by
          rw [dkArr] at hdxs
          simpa using hdxs
        have hlen2 : (stringifyV w2).length + (stringifyArrRest ws2).length + 1 < f := by
          rw [stringifyArrRest] at hlen
          have hv1 := stringify_length_pos v
          simp only [List.length_cons, List.length_append] at hlen
          omega
        have harr2 := ihA w2 ws2 rest hpw2 hdw2 hpws2 hdws2 hlen2
        rw [stringifyArrRest]
        simp only [List.cons_append, List.append_assoc] at harr2 ⊢
        simp [skipWs, List.dropWhile_cons, isWsChar, harr2, arrToList]
    · -- object fields
      intro k v m rest hk hp hd hpm hdm hlen
      have hndm : numDelim (stringifyObjRest m ++ '}' :: rest) := by
        cases m with
        | onil =>
          intro c hc
          rw [stringifyObjRest] at hc
          simp at hc
          rw [← hc]
          decide
        | ocons k2 v2 m2 =>
          intro c hc
          rw [stringifyObjRest] at hc
          simp at hc
          rw [← hc]
          decide
      have hshape : escStr k ++ ':' :: stringifyV v ++ stringifyObjRest m ++ '}' :: rest
          = '"' :: (k ++ '"' :: (':' :: (stringifyV v ++ (stringifyObjRest m ++ '}' :: rest)))) := by
        rw [escStr, escStrBody_plain k hk]
        simp
      rw [hshape]
      have hlenv : (stringifyV v).length < f := by
        have : 2 ≤ (escStr k).length := by rw [escStr]; simp
        omega
      have hval := ihV v (stringifyObjRest m ++ '}' :: rest) hp hd hndm hlenv
      simp only [parseObjFields]
      rw [show skipWs ('"' :: (k ++ '"' :: (':' :: (stringifyV v ++ (stringifyObjRest m ++ '}' :: rest)))))
        = '"' :: (k ++ '"' :: (':' :: (stringifyV v ++ (stringifyObjRest m ++ '}' :: rest)))) from
        skipWs_cons _ (by decide)]
      simp only [parseStringBody_plain k _ hk]
      rw [show skipWs (':' :: (stringifyV v ++ (stringifyObjRest m ++ '}' :: rest)))
        = ':' :: (stringifyV v ++ (stringifyObjRest m ++ '}' :: rest)) from
        skipWs_cons _ (by decide)]
      simp only [hval]
      cases m with
      | onil =>
        rw [stringifyObjRest]
        simp [skipWs, List.dropWhile, isWsChar, objToPairs]
      | ocons k2 v2 m2 =>
        obtain ⟨⟨hk22, hpv2⟩, hpm2⟩ :
            (plainStr k2 = true ∧ plainV v2 = true) ∧ plainObj m2 = true := by
          rw [plainObj] at hpm
          simpa using hpm
        obtain ⟨⟨hlk2, hdv2⟩, hdm2⟩ :
            (JObj.lookup m2 k2 = none ∧ dkV v2 = true) ∧ dkObj m2 = true := by
          rw [dkObj] at hdm
          simpa using hdm
        have hlen2 : (escStr k2).length + (stringifyV v2).length
            + (stringifyObjRest m2).length + 2 < f := by
          rw [stringifyObjRest] at hlen
          have hv1 := stringify_length_pos v
          simp only [List.length_cons, List.length_append] at hlen
          omega
        have hobj2 := ihO k2 v2 m2 rest hk22 hpv2 hdv2 hpm2 hdm2 hlen2
        rw [stringifyObjRest]
        simp only [List.cons_append, List.append_assoc] at hobj2 ⊢
        simp [skipWs, List.dropWhile_cons, isWsChar, hobj2, objToPairs]

/-- `JSON.parse` inverts `JSON.stringify` on plain values with distinct
object keys. -/
theorem jsonParse_stringify (v : JValue) (hp : plainV v = true) (hd : dkV v = true) :
    jsonParseChars (stringifyV v) = some v := by
  have h := (RT_main ((stringifyV v).length + 1)).1 v [] hp hd
    (fun c hc => by simp at hc) (by omega)
  rw [jsonParseChars]
  simp only [List.append_nil] at h
  rw [h]
  rfl

/-!
## Trim and cleanup-chain lemmas
-/

theorem trimChars_eq_rdrop (l : Str) :
    trimChars l = List.rdropWhile isWsChar (List.dropWhile isWsChar l) := rfl

theorem dropWhile_head_not {p : Char → Bool} : ∀ (l : Str) (c : Char),
    (l.dropWhile p).head? = some c → p c = false
  | [], c, h => by simp at h
  | a :: t, c, h => by
    rw [List.dropWhile_cons] at h
    by_cases ha : p a
    · rw [if_pos ha] at h
      exact dropWhile_head_not t c h
    · rw [if_neg ha] at h
      simp only [List.head?_cons, Option.some.injEq] at h
      rw [← h]
      simpa using ha

theorem trimChars_subset {l : Str} {c : Char} (h : c ∈ trimChars l) : c ∈ l := by
  rw [trimChars_eq_rdrop] at h
  exact (List.dropWhile_suffix isWsChar).subset ((List.rdropWhile_prefix isWsChar _).subset h)

theorem trimChars_idem (l : Str) : trimChars (trimChars l) = trimChars l := by
  rw [trimChars_eq_rdrop, trimChars_eq_rdrop]
  have hdrop : List.dropWhile isWsChar (List.rdropWhile isWsChar (List.dropWhile isWsChar l))
      = List.rdropWhile isWsChar (List.dropWhile isWsChar l) := by
    cases hr : List.rdropWhile isWsChar (List.dropWhile isWsChar l) with
    | nil => rfl
    | cons a t =>
      have hpre := List.rdropWhile_prefix isWsChar (List.dropWhile isWsChar l)
      rw [hr] at hpre
      have hhead : (List.dropWhile isWsChar l).head? = some a := by
        obtain ⟨u, hu⟩ := hpre
        rw [← hu]
        simp
      have := dropWhile_head_not l a hhead
      rw [List.dropWhile_cons, this]
      simp
  rw [hdrop, List.rdropWhile_idempotent]

theorem replaceBSQ_cons_ne (c : Char) (t : Str) (hc : c ≠ '\\') :
    replaceBSQ (c :: t) = c :: replaceBSQ t := by
  cases t with
  | nil => simp [replaceBSQ, hc]
  | cons d t2 =>
    by_cases hd : d = '"'
    · subst hd
      simp [replaceBSQ, hc]
    · simp [replaceBSQ, hc, hd]

theorem replaceBSQ_id (s : Str) (h : '\\' ∉ s) : replaceBSQ s = s := by
  induction s with
  | nil => rfl
  | cons c t ih =>
    have hc : c ≠ '\\' := fun he => h (he ▸ List.mem_cons_self c t)
    have ht : '\\' ∉ t := fun he => h (List.mem_cons_of_mem c he)
    rw [replaceBSQ_cons_ne c t hc, ih ht]

theorem removeBS_id (s : Str) (h : '\\' ∉ s) : removeBS s = s := by
  rw [removeBS, List.filter_eq_self]
  intro c hc
  simp only [bne_iff_ne, ne_eq, decide_eq_true_eq]
  exact fun he => h (he ▸ hc)

theorem stripOuterQuotes_id (s : Str) (h1 : s.head? ≠ some '"') (h2 : s.getLast? ≠ some '"') :
    stripOuterQuotes s = s := by
  rw [stripOuterQuotes]
  have hl : dropLeadQuote s = s := by
    cases s with
    | nil => rfl
    | cons a t =>
      have : a ≠ '"' := fun he => h1 (by rw [he]; rfl)
      simp [dropLeadQuote, this]
  rw [hl, dropTrailQuote, if_neg h2]

theorem stringify_obj_head (m : JObj) :
    (stringifyV (.jobj m)).head? = some '{' := by
  rw [stringifyV]
  rfl

theorem stringify_obj_last (m : JObj) :
    (stringifyV (.jobj m)).getLast? = some '}' := by
  rw [stringifyV]
  show (('{' :: stringifyObj m) ++ ['}']).getLast? = some '}'
  rw [List.getLast?_append_cons]
  rfl

theorem trimChars_eq_self_of_head_last (l : Str)
    (h1 : ∀ c, l.head? = some c → isWsChar c = false)
    (h2 : ∀ c, l.getLast? = some c → isWsChar c = false) : trimChars l = l :=
  trimChars_eq_self l h1 h2

/-- The attribute-cell cleanup chain is the identity on a serialized plain
object. -/
theorem cleanAttrCell_stringify (m : JObj) (hp : plainObj m = true) :
    cleanAttrCell (trimChars (stringifyV (.jobj m))) = stringifyV (.jobj m) := by
  set s := stringifyV (.jobj m) with hs
  have hhead : s.head? = some '{' := stringify_obj_head m
  have hlast : s.getLast? = some '}' := stringify_obj_last m
  have htrim : trimChars s = s := by
    refine trimChars_eq_self_of_head_last s ?_ ?_
    · intro c hc
      rw [hhead] at hc
      simp at hc
      rw [← hc]
      rfl
    · intro c hc
      rw [hlast] at hc
      simp at hc
      rw [← hc]
      rfl
  have hnb : '\\' ∉ s := by
    intro hmem
    have hok := strCharsV (.jobj m) (by simpa [plainV] using hp) '\\' (hs ▸ hmem)
    exact hok.1 rfl
  have hstrip : stripOuterQuotes s = s :=
    stripOuterQuotes_id s (by rw [hhead]; simp) (by rw [hlast]; simp)
  rw [cleanAttrCell, htrim, hstrip, htrim, replaceBSQ_id s hnb, hstrip, removeBS_id s hnb, htrim]

theorem joinSep_pair (sep a b : Str) : joinSep sep [a, b] = a ++ sep ++ b := rfl

theorem encodeRow_pair_head (n s : Str) :
    encodeRow [n, s] = '"' :: (escQuotesCSV n ++ ['"'] ++ (',' :: quoteCell s)) := by
  rw [encodeRow]
  show joinSep [','] [quoteCell n, quoteCell s] = _
  rw [joinSep_pair, quoteCell]
  simp

/-- The data-row loop accepts an exporter-encoded two-cell row built from a
clean name and a serialized plain schema-valid object, producing exactly the
original attribute object. -/
theorem processLine_encoded (n : Str) (m : JObj)
    (hq : '"' ∉ n)
    (hne : (trimChars n).isEmpty = false)
    (hp : plainObj m = true)
    (hdk : dkObj m = true)
    (hv : validateMetadata (.jobj m) = none) :
    processLine (encodeRow [n, stringifyV (.jobj m)]) = .okRow (trimChars n) (.jobj m) := by
  have hrow : parseCSVLine (encodeRow [n, stringifyV (.jobj m)])
      = [trimChars n, trimChars (stringifyV (.jobj m))] := by
    have h := parseCSVLine_encodeRow [n, stringifyV (.jobj m)] (by simp)
    simpa using h
  have htrimline : (trimChars (encodeRow [n, stringifyV (.jobj m)])).isEmpty = false := by
    rw [encodeRow_pair_head]
    exact trim_nonEmpty_of_head '"' _ (by decide)
  have hinstr : instrToken.isPrefixOf (encodeRow [n, stringifyV (.jobj m)]) = false := by
    rw [encodeRow_pair_head, instrToken]
    show List.isPrefixOf ('I' :: _) ('"' :: _) = false
    exact isPrefixOf_cons_ne _ _ (by decide)
  have hq' : '"' ∉ trimChars n := fun hmem => hq (trimChars_subset hmem)
  have hstrip : stripOuterQuotes (trimChars n) = trimChars n := by
    refine stripOuterQuotes_id _ ?_ ?_
    · intro hcon
      exact hq' (List.mem_of_mem_head? hcon)
    · intro hcon
      exact hq' (List.mem_of_mem_getLast? hcon)
  have hfn : trimChars (stripOuterQuotes (trimChars n)) = trimChars n := by
    rw [hstrip, trimChars_idem]
  have hjson : jsonParseChars (cleanAttrCell (trimChars (stringifyV (.jobj m))))
      = some (.jobj m) := by
    rw [cleanAttrCell_stringify m hp]
    exact jsonParse_stringify (.jobj m) (by simpa [plainV] using hp) (by simpa [dkV] using hdk)
  rw [processLine]
  rw [if_neg (by rw [htrimline, hinstr]; simp)]
  rw [hrow]
  simp only [hfn, hne, Bool.false_eq_true, if_false, hjson, hv]

theorem processRows_encoded : ∀ (fs : List FileRec) (acc : List (Str × JValue)),
    (∀ f ∈ fs, goodRecord f) →
    processRows (fs.map (fun f => encodeRow [displayName f, stringifyV f.attributes])) acc
      = (if (acc ++ fs.map (fun f => (trimChars (displayName f), f.attributes))).isEmpty
          then .error .noValidRows
          else .ok (acc ++ fs.map (fun f => (trimChars (displayName f), f.attributes)))) := by
  intro fs
  induction fs with
  | nil =>
    intro acc _
    simp only [List.map_nil, List.append_nil]
    rw [processRows]
  | cons f fs' ih =>
    intro acc hall
    obtain ⟨⟨m, hm, hpm, hdm⟩, hv, hq, _, _, hne⟩ := hall f (by simp)
    have hline : processLine (encodeRow [displayName f, stringifyV f.attributes])
        = .okRow (trimChars (displayName f)) f.attributes := by
      rw [hm]
      exact processLine_encoded (displayName f) m hq hne hpm hdm (hm ▸ hv)
    simp only [List.map_cons, processRows]
    rw [hline]
    show processRows _ (acc ++ [(trimChars (displayName f), f.attributes)]) = _
    rw [ih (acc ++ [(trimChars (displayName f), f.attributes)])
        (fun g hg => hall g (List.mem_cons_of_mem f hg))]
    simp

theorem mem_escQuotesCSV {c : Char} : ∀ s : Str, c ∈ escQuotesCSV s → c ∈ s ∨ c = '"'
  | [], h => by simp [escQuotesCSV] at h
  | a :: t, h => by
    by_cases ha : a = '"'
    · subst ha
      rw [escQuotesCSV] at h
      rcases List.mem_cons.mp h with h1 | h1
      · exact Or.inr h1
      · rcases List.mem_cons.mp h1 with h2 | h2
        · exact Or.inr h2
        · rcases mem_escQuotesCSV t h2 with h3 | h3
          · exact Or.inl (List.mem_cons_of_mem _ h3)
          · exact Or.inr h3
    · have he : escQuotesCSV (a :: t) = a :: escQuotesCSV t := by
        simp [escQuotesCSV, ha]
      rw [he] at h
      rcases List.mem_cons.mp h with h1 | h1
      · exact Or.inl (h1 ▸ List.mem_cons_self a t)
      · rcases mem_escQuotesCSV t h1 with h3 | h3
        · exact Or.inl (List.mem_cons_of_mem _ h3)
        · exact Or.inr h3

theorem mem_quoteCell {c : Char} {s : Str} (h : c ∈ quoteCell s) : c ∈ s ∨ c = '"' := by
  rw [quoteCell] at h
  rcases List.mem_cons.mp h with h1 | h1
  · exact Or.inr h1
  · rcases List.mem_append.mp h1 with h2 | h2
    · exact mem_escQuotesCSV s h2
    · simp at h2
      exact Or.inr h2

theorem mem_joinSep {c : Char} {sep : Str} : ∀ parts : List Str,
    c ∈ joinSep sep parts → c ∈ sep ∨ ∃ p ∈ parts, c ∈ p
  | [], h => by simp [joinSep] at h
  | [x], h => Or.inr ⟨x, by simp, by simpa [joinSep] using h⟩
  | x :: y :: t, h => by
    rw [joinSep_cons₂] at h
    rcases List.mem_append.mp h with h1 | h1
    · rcases List.mem_append.mp h1 with h2 | h2
      · exact Or.inr ⟨x, by simp, h2⟩
      · exact Or.inl h2
    · rcases mem_joinSep (y :: t) h1 with h2 | ⟨p, hp1, hp2⟩
      · exact Or.inl h2
      · exact Or.inr ⟨p, List.mem_cons_of_mem x hp1, hp2⟩

theorem mem_encodeRow {c : Char} {cells : List Str} (h : c ∈ encodeRow cells) :
    c = ',' ∨ c = '"' ∨ ∃ cell ∈ cells, c ∈ cell := by
  rw [encodeRow] at h
  rcases mem_joinSep _ h with h1 | ⟨p, hp1, hp2⟩
  · simp at h1
    exact Or.inl h1
  · obtain ⟨cell, hc1, hc2⟩ := List.mem_map.mp hp1
    rcases mem_quoteCell (hc2 ▸ hp2) with h3 | h3
    · exact Or.inr (Or.inr ⟨cell, hc1, h3⟩)
    · exact Or.inr (Or.inl h3)

theorem encodeRow_cons_head (x : Str) (xs : List Str) :
    ∃ t, encodeRow (x :: xs) = '"' :: t := by
  cases xs with
  | nil => exact ⟨escQuotesCSV x ++ ['"'], rfl⟩
  | cons y ys =>
    refine ⟨escQuotesCSV x ++ ['"'] ++ ',' :: joinSep [','] (quoteCell y :: List.map quoteCell ys), ?_⟩
    rw [encodeRow, List.map_cons, List.map_cons, joinSep_cons₂, quoteCell]
    simp

theorem remap2_exportMatrix (fmtDate : Int → Str) (files : List FileRec) :
    remap2 (exportMatrix fmtDate files)
      = ["File Name".data, "Attributes".data]
        :: files.map (fun f => [displayName f, stringifyV f.attributes]) := by
  rw [remap2, exportMatrix, List.map_cons]
  congr 1
  rw [List.map_map]
  refine List.map_congr_left ?_
  intro f _
  rfl

/-- The export→remap→import round-trip text parses back to exactly the
original attribute objects, one update per record in order. -/
theorem parseImportRows_roundTrip (fmtDate : Int → Str) (files : List FileRec)
    (hne : files ≠ []) (hall : ∀ f ∈ files, goodRecord f) :
    parseImportRows (exportThenImportText fmtDate files)
      = .ok (files.map (fun f => (trimChars (displayName f), f.attributes))) := by
  have hlines : (remap2 (exportMatrix fmtDate files)).map encodeRow
      = encodeRow ["File Name".data, "Attributes".data]
        :: files.map (fun f => encodeRow [displayName f, stringifyV f.attributes]) := by
    rw [remap2_exportMatrix, List.map_cons, List.map_map]
    rfl
  have hclean : ∀ l ∈ (remap2 (exportMatrix fmtDate files)).map encodeRow,
      '\n' ∉ l ∧ '\r' ∉ l ∧ (trimChars l).isEmpty = false := by
    intro l hl
    rw [hlines] at hl
    rcases List.mem_cons.mp hl with h1 | h1
    · subst h1
      refine ⟨?_, ?_, ?_⟩
      · decide
      · decide
      · decide
    · obtain ⟨f, hf, hfe⟩ := List.mem_map.mp h1
      obtain ⟨⟨m, hm, hpm, _⟩, _, _, hnl, hcr, _⟩ := hall f hf
      have hchars : ∀ c ∈ encodeRow [displayName f, stringifyV f.attributes],
          c ≠ '\n' ∧ c ≠ '\r' := by
        intro c hc
        rcases mem_encodeRow hc with h2 | h2 | ⟨cell, hcell, hcin⟩
        · subst h2; exact ⟨by decide, by decide⟩
        · subst h2; exact ⟨by decide, by decide⟩
        · rcases List.mem_cons.mp hcell with h3 | h3
          · subst h3
            exact ⟨fun he => hnl (he ▸ hcin), fun he => hcr (he ▸ hcin)⟩
          · have h4 : cell = stringifyV f.attributes := by simpa using h3
            subst h4
            have hok := strCharsV f.attributes (by rw [hm]; simpa [plainV] using hpm) c hcin
            exact ⟨hok.2.1, hok.2.2⟩
      obtain ⟨t, ht⟩ := encodeRow_cons_head (displayName f) [stringifyV f.attributes]
      refine ⟨fun hmem => (hchars '\n' (hfe ▸ hmem)).1 rfl,
        fun hmem => (hchars '\r' (hfe ▸ hmem)).2 rfl, ?_⟩
      rw [← hfe, ht]
      exact trim_nonEmpty_of_head '"' t (by decide)
  have hsplit : splitNonBlankLines (exportThenImportText fmtDate files)
      = encodeRow ["File Name".data, "Attributes".data]
        :: files.map (fun f => encodeRow [displayName f, stringifyV f.attributes]) := by
    rw [exportThenImportText, splitNonBlank_join _ (by rw [hlines]; simp)
      (fun l hl => hclean l hl), hlines]
  rw [parseImportRows, hsplit]
  have hhdr : parseCSVLine (encodeRow ["File Name".data, "Attributes".data])
      = ["File Name".data, "Attributes".data] := by decide
  have hc1 : toLowerChars ("File Name".data) = "file name".data := by decide
  have hc2 : includesChars (toLowerChars ("Attributes".data)) ("attributes".data) = true := by
    decide
  simp only [hhdr, hc1, hc2, ne_eq, not_true_eq_false, Bool.false_eq_true, if_false, if_true]
  rw [processRows_encoded files [] hall]
  have hne2 : files.map (fun f => (trimChars (displayName f), f.attributes)) ≠ [] := by
    simpa using hne
  simp only [List.nil_append]
  rw [if_neg (by simpa using hne2)]

/-!
## Export specification equality, reconciliation bookkeeping, fail-fast lemmas
-/

theorem escQuotesCSV_eq_spec (s : Str) :
    escQuotesCSV s = s.flatMap (fun c => if c = '"' then ['"', '"'] else [c]) := by
  induction s with
  | nil => rfl
  | cons c t ih =>
    by_cases hc : c = '"'
    · subst hc
      simp [escQuotesCSV, ih]
    · simp [escQuotesCSV, hc, ih]

theorem quoteCell_eq_spec (s : Str) : quoteCell s = quoteCellSpec s := by
  rw [quoteCell, quoteCellSpec, escQuotesCSV_eq_spec]

theorem encodeRow_eq_spec (cells : List Str) : encodeRow cells = rowLineSpec cells := by
  rw [encodeRow, rowLineSpec]
  congr 1
  exact List.map_congr_left (fun c _ => quoteCell_eq_spec c)

theorem reconcile_spec (files : List FileRec) (oracle : Str → JValue → Bool) :
    ∀ (updates : List (Str × JValue)) (st : Summary × List RemoteCall),
    updates.foldl (reconcileStep files oracle) st
      = (⟨⟨st.1.success.count
            + ((updates.filter (fun u => rowBucket files oracle u == 0)).map Prod.fst).length,
          st.1.success.files
            ++ (updates.filter (fun u => rowBucket files oracle u == 0)).map Prod.fst⟩,
         ⟨st.1.errors.count
            + ((updates.filter (fun u => rowBucket files oracle u == 1)).map
                (fun u => (u.1, ErrReason.updateFailed))).length,
          st.1.errors.files
            ++ (updates.filter (fun u => rowBucket files oracle u == 1)).map
                (fun u => (u.1, ErrReason.updateFailed))⟩,
         ⟨st.1.notFound.count
            + ((updates.filter (fun u => rowBucket files oracle u == 2)).map Prod.fst).length,
          st.1.notFound.files
            ++ (updates.filter (fun u => rowBucket files oracle u == 2)).map Prod.fst⟩⟩,
        st.2 ++ callsOf files updates) := by
  intro updates
  induction updates with
  | nil =>
    intro st
    simp [callsOf]
  | cons u us ih =>
    intro st
    rw [List.foldl_cons, ih]
    cases hfind : findMatch files u.1 with
    | none =>
      have hb : rowBucket files oracle u = 2 := by rw [rowBucket, hfind]
      simp only [reconcileStep, hfind]
      simp [callsOf, hb, hfind, List.filter_cons]
      omega
    | some f =>
      by_cases hor : oracle f.id u.2
      · have hb : rowBucket files oracle u = 0 := by rw [rowBucket, hfind]; simp [hor]
        simp only [reconcileStep, hfind]
        simp [callsOf, hb, hfind, hor, List.filter_cons]
        omega
      · have hb : rowBucket files oracle u = 1 := by rw [rowBucket, hfind]; simp [hor]
        simp only [reconcileStep, hfind]
        simp [callsOf, hb, hfind, hor, List.filter_cons]
        omega

theorem rowBucket_lt_three (files : List FileRec) (oracle : Str → JValue → Bool)
    (u : Str × JValue) : rowBucket files oracle u < 3 := by
  rw [rowBucket]
  cases findMatch files u.1 with
  | none => show (2 : Nat) < 3; omega
  | some f =>
    by_cases hor : oracle f.id u.2
    · simp [hor]
    · simp [hor]

theorem filter_buckets_partition (files : List FileRec) (oracle : Str → JValue → Bool) :
    ∀ updates : List (Str × JValue),
    (updates.filter (fun u => rowBucket files oracle u == 0)).length
      + (updates.filter (fun u => rowBucket files oracle u == 1)).length
      + (updates.filter (fun u => rowBucket files oracle u == 2)).length
      = updates.length := by
  intro updates
  induction updates with
  | nil => rfl
  | cons u us ih =>
    have hlt := rowBucket_lt_three files oracle u
    rcases (by omega : rowBucket files oracle u = 0 ∨ rowBucket files oracle u = 1
        ∨ rowBucket files oracle u = 2) with hb | hb | hb <;>
      simp [List.filter_cons, hb] <;> omega

theorem processRows_reach (pre : List Str) : ∀ (l : Str) (post : List Str)
    (acc : List (Str × JValue)) (e : ImportError), noFailIn pre →
    processLine l = .failRow e → processRows (pre ++ l :: post) acc = .error e := by
  induction pre with
  | nil =>
    intro l post acc e _ hl
    rw [List.nil_append, processRows, hl]
  | cons p pre' ih =>
    intro l post acc e hnf hl
    rw [List.cons_append, processRows]
    have hnf' : noFailIn pre' := fun q hq e2 => hnf q (List.mem_cons_of_mem p hq) e2
    cases hp : processLine p with
    | skipRow => exact ih l post acc e hnf' hl
    | okRow n2 a2 => exact ih l post _ e hnf' hl
    | failRow e2 => exact absurd hp (hnf p (by simp) e2)

theorem schemaBad_validate (m : JObj) (h : schemaBad m) :
    validateMetadata (.jobj m) = some (violationKind (.jobj m)) ∧
    isSchemaViolation (violationKind (.jobj m)) = true := by
  have hex : ∃ k, validateMetadata (.jobj m) = some k ∧ isSchemaViolation k = true := by
    rw [validateMetadata]
    cases hmiss : requiredFields.filter (fun fld => (m.lookup fld).isNone) with
    | cons a t =>
      refine ⟨.missingRequired (a :: t), ?_, rfl⟩
      simp [hmiss]
    | nil =>
      have hpresent : ∀ fld ∈ requiredFields, (m.lookup fld).isNone = false := by
        intro fld hfld
        by_contra hcon
        have : fld ∈ requiredFields.filter (fun fld => (m.lookup fld).isNone) :=
          List.mem_filter.mpr ⟨hfld, by simpa using hcon⟩
        rw [hmiss] at this
        simp at this
      simp only [hmiss]
      rcases h with ⟨k, hk1, hk2⟩ | hyear | hstatus
      · have := hpresent k hk1
        rw [hk2] at this
        simp at this
      · cases hy : m.lookup ("year".data) with
        | none =>
          have := hpresent ("year".data) (by rw [requiredFields]; simp)
          rw [hy] at this
          simp at this
        | some v =>
          cases v with
          | jnum i => exact absurd hy (hyear i)
          | jnull => exact ⟨.yearNotNumber, by simp [hy], rfl⟩
          | jbool b => exact ⟨.yearNotNumber, by simp [hy], rfl⟩
          | jstr s => exact ⟨.yearNotNumber, by simp [hy], rfl⟩
          | jarr xs => exact ⟨.yearNotNumber, by simp [hy], rfl⟩
          | jobj m2 => exact ⟨.yearNotNumber, by simp [hy], rfl⟩
      · cases hy : m.lookup ("year".data) with
        | none =>
          have := hpresent ("year".data) (by rw [requiredFields]; simp)
          rw [hy] at this
          simp at this
        | some v =>
          cases v with
          | jnum i =>
            cases hst : m.lookup ("status".data) with
            | none =>
              have := hpresent ("status".data) (by rw [requiredFields]; simp)
              rw [hst] at this
              simp at this
            | some sv =>
              cases sv with
              | jstr st =>
                refine ⟨.badStatus, ?_, rfl⟩
                have hco := hstatus st hst
                simp at hco
                simp [hy, hst, hco]
              | jnull => exact ⟨.badStatus, by simp [hy, hst], rfl⟩
              | jbool b => exact ⟨.badStatus, by simp [hy, hst], rfl⟩
              | jnum i2 => exact ⟨.badStatus, by simp [hy, hst], rfl⟩
              | jarr xs => exact ⟨.badStatus, by simp [hy, hst], rfl⟩
              | jobj m2 => exact ⟨.badStatus, by simp [hy, hst], rfl⟩
          | jnull => exact ⟨.yearNotNumber, by simp [hy], rfl⟩
          | jbool b => exact ⟨.yearNotNumber, by simp [hy], rfl⟩
          | jstr s => exact ⟨.yearNotNumber, by simp [hy], rfl⟩
          | jarr xs => exact ⟨.yearNotNumber, by simp [hy], rfl⟩
          | jobj m2 => exact ⟨.yearNotNumber, by simp [hy], rfl⟩

  obtain ⟨k, hk, hsv⟩ := hex
  have hvk : violationKind (.jobj m) = k := by
    rw [violationKind, hk]
    rfl
  rw [hvk]
  exact ⟨hk, hsv⟩

/-!
## Claims
-/

/-- C3: the CSV field parser honors double-quoted fields and doubled-quote
escaping rather than splitting naively on commas: decoding the exporter's
quoted-and-doubled encoding of any nonempty cell list recovers exactly those
cells (trimmed), so a quoted comma never splits a field and a doubled quote
decodes to one literal quote; in particular `"a,b","c"` parses to the two
fields `a,b` and `c`, and `"a""b"` parses to `a"b`. -/
theorem c3_parseCSVLine_quoting :
    (∀ cells : List Str, cells ≠ [] → parseCSVLine (encodeRow cells) = cells.map trimChars) ∧
    parseCSVLine ("\"a,b\",\"c\"".data) = ["a,b".data, "c".data] ∧
    parseCSVLine ("\"a\"\"b\"".data) = ["a\"b".data] :=
  ⟨parseCSVLine_encodeRow, by decide, by decide⟩

theorem c3_parseCSVLine_quoting_witness :
    parseCSVLine (encodeRow ["x,y".data, "z\"w".data]) = ["x,y".data, "z\"w".data] := by
  rw [c3_parseCSVLine_quoting.1 ["x,y".data, "z\"w".data] (by decide)]
  decide

/-- C7: CSV export produces the fixed header row followed by exactly one row
per record in list order, the record's attributes serialized as a JSON
string, and every cell double-quote-escaped and wrapped in quotes — stated
as equality with `exportCSVSpec`, the transform written in the
specification's own words. -/
theorem c7_export_format : ∀ (fmtDate : Int → Str) (files : List FileRec),
    handleExportFiles fmtDate files = exportCSVSpec fmtDate files := by
  intro fmtDate files
  rw [handleExportFiles, exportCSVSpec, exportMatrix, List.map_cons, List.map_map]
  have hmap : List.map (encodeRow ∘ exportRowCells fmtDate) files
      = List.map (fun f => rowLineSpec [displayName f, f.id, intToChars f.bytes,
          fmtDate f.created_at, f.purpose, f.vectorStoreId, stringifyV f.attributes]) files :=
    List.map_congr_left (fun f _ => encodeRow_eq_spec _)
  rw [hmap, encodeRow_eq_spec exportHeaderCells]
  rfl

/-- C8: a parsed row is matched to a record exactly when the row's file name
equals the record's `filename` or `name`, or the file name with `.pdf`
appended equals either; the reconciliation lookup is `find?` with exactly
this predicate, and a row named `report` resolves to a record named
`report.pdf` via the suffix fallback. -/
theorem c8_match_predicate :
    (∀ (fileName : Str) (f : FileRec),
      fileMatches fileName f = true ↔
        (f.filename = fileName ∨ f.name = fileName ∨
         f.filename = fileName ++ ".pdf".data ∨ f.name = fileName ++ ".pdf".data)) ∧
    (∀ (files : List FileRec) (n : Str), findMatch files n = files.find? (fileMatches n)) ∧
    findMatch [repRec] ("report".data) = some repRec := by
  refine ⟨?_, fun _ _ => rfl, by rfl⟩
  intro n f
  rw [fileMatches]
  simp only [Bool.or_eq_true, beq_iff_eq]
  tauto

/-- C9: when a save succeeds, only the edited record's attributes change:
the mirror keeps its length, every record whose id differs from the edited
file's id is unchanged, and the record with the matching id keeps every
field other than `attributes`. -/
theorem c9_save_frame (editingFile : FileRec) (files : List FileRec)
    (input : Str) (oracle : Bool) (call : RemoteCall) (files' : List FileRec)
    (h : handleSaveMetadata editingFile files input oracle = .saved call files') :
    files'.length = files.length ∧
    List.Forall₂ (fun f f' =>
      (f.id ≠ editingFile.id → f' = f) ∧
      (f.id = editingFile.id → f'.id = f.id ∧ f'.filename = f.filename ∧
        f'.name = f.name ∧ f'.bytes = f.bytes ∧ f'.created_at = f.created_at ∧
        f'.purpose = f.purpose ∧ f'.vectorStoreId = f.vectorStoreId ∧
        f'.object = f.object)) files files' := by
  cases hp : jsonParseChars input with
  | none =>
    simp only [handleSaveMetadata, hp] at h
    exact SaveOutcome.noConfusion h
  | some parsed =>
    simp only [handleSaveMetadata, hp] at h
    by_cases h16 : (keysOf parsed).length > 16
    · rw [if_pos h16] at h; exact absurd h (by simp)
    · rw [if_neg h16] at h
      by_cases h256 : (keysOf parsed).any (fun k => k.length > 256) = true
      · rw [if_pos h256] at h; exact absurd h (by simp)
      · rw [if_neg h256] at h
        cases oracle with
        | false => exact absurd h (by simp)
        | true =>
          simp only [if_true] at h
          injection h with h1 h2
          subst h2
          refine ⟨by rw [List.length_map], ?_⟩
          refine List.forall₂_map_right_iff.mpr (List.forall₂_same.mpr ?_)
          intro f hf
          by_cases hid : f.id = editingFile.id
          · refine ⟨fun hne => absurd hid hne, fun _ => ?_⟩
            rw [if_pos (by simpa using hid)]
            exact ⟨rfl, rfl, rfl, rfl, rfl, rfl, rfl, rfl⟩
          · refine ⟨fun _ => ?_, fun hc => absurd hc hid⟩
            rw [if_neg (by simpa using hid)]

theorem c9_save_frame_witness :
    ([{fRec with attributes := aVal}, gRec].length = [fRec, gRec].length) ∧
    List.Forall₂ (fun f f' =>
      (f.id ≠ fRec.id → f' = f) ∧
      (f.id = fRec.id → f'.id = f.id ∧ f'.filename = f.filename ∧
        f'.name = f.name ∧ f'.bytes = f.bytes ∧ f'.created_at = f.created_at ∧
        f'.purpose = f.purpose ∧ f'.vectorStoreId = f.vectorStoreId ∧
        f'.object = f.object)) [fRec, gRec] [{fRec with attributes := aVal}, gRec] :=
  c9_save_frame fRec [fRec, gRec] saveInput true
    ⟨fRec.id, aVal, fRec.vectorStoreId⟩ [{fRec with attributes := aVal}, gRec] (by rfl)

/-- C5: an attribute map with more than 16 keys or a key longer than 256
characters is rejected by both the client save path and the PATCH route
before any remote call: the only outcomes are the callless rejection
constructors, never `updateFailed`/`saved` (which carry the issued call)
nor `forwarded`. -/
theorem c5_attr_limits :
    (∀ (editingFile : FileRec) (files : List FileRec) (input : Str) (oracle : Bool)
        (parsed : JValue), jsonParseChars input = some parsed →
      ((keysOf parsed).length > 16 ∨ ∃ k ∈ keysOf parsed, k.length > 256) →
      handleSaveMetadata editingFile files input oracle = .tooManyKeys ∨
      handleSaveMetadata editingFile files input oracle = .keyTooLong) ∧
    (∀ (fileId vectorStoreId : Str) (attributes : JValue),
      ((keysOf attributes).length > 16 ∨ ∃ k ∈ keysOf attributes, k.length > 256) →
      patchRoute fileId vectorStoreId attributes = .missingVectorStore ∨
      patchRoute fileId vectorStoreId attributes = .tooManyKeys ∨
      patchRoute fileId vectorStoreId attributes = .keyTooLong) := by
  constructor
  · intro ef fs input oracle parsed hp hbad
    by_cases h16 : (keysOf parsed).length > 16
    · left
      simp only [handleSaveMetadata, hp]
      rw [if_pos h16]
    · right
      have hany : (keysOf parsed).any (fun k => k.length > 256) = true := by
        rcases hbad with h | ⟨k, hk, hlen⟩
        · exact absurd h h16
        · exact List.any_eq_true.mpr ⟨k, hk, by simpa using hlen⟩
      simp only [handleSaveMetadata, hp]
      rw [if_neg h16, if_pos hany]
  · intro fileId vsId attrs hbad
    by_cases hv : vsId.isEmpty = true
    · left
      rw [patchRoute, if_pos hv]
    · right
      by_cases h16 : (keysOf attrs).length > 16
      · left
        rw [patchRoute, if_neg hv, if_pos h16]
      · right
        have hany : (keysOf attrs).any (fun k => k.length > 256) = true := by
          rcases hbad with h | ⟨k, hk, hlen⟩
          · exact absurd h h16
          · exact List.any_eq_true.mpr ⟨k, hk, by simpa using hlen⟩
        rw [patchRoute, if_neg hv, if_neg h16, if_pos hany]

theorem c5_attr_limits_witness :
    (handleSaveMetadata fRec [fRec] (stringifyV (.jobj big17)) true = .tooManyKeys ∨
     handleSaveMetadata fRec [fRec] (stringifyV (.jobj big17)) true = .keyTooLong) ∧
    (patchRoute ("file-1".data) ("vs".data) (.jobj big17) = .missingVectorStore ∨
     patchRoute ("file-1".data) ("vs".data) (.jobj big17) = .tooManyKeys ∨
     patchRoute ("file-1".data) ("vs".data) (.jobj big17) = .keyTooLong) :=
  ⟨c5_attr_limits.1 fRec [fRec] (stringifyV (.jobj big17)) true (.jobj big17)
      (by rfl) (Or.inl (by decide)),
   c5_attr_limits.2 ("file-1".data) ("vs".data) (.jobj big17) (Or.inl (by decide))⟩

/-- C6: when the parse stage yields exactly two rows, row 1 matching a
record (and its update succeeding) and row 2 matching none, the summary
counts 1 success and 1 not-found, the not-found list is exactly row 2's
file name, and the single issued PATCH is for row 1's match — none for the
unmatched row. -/
theorem c6_two_row_summary (files : List FileRec) (oracle : Str → JValue → Bool)
    (text : Str) (u1 u2 : Str × JValue) (f : FileRec)
    (hparse : parseImportRows text = .ok [u1, u2])
    (hm1 : findMatch files u1.1 = some f)
    (hor : oracle f.id u1.2 = true)
    (hm2 : findMatch files u2.1 = none) :
    (handleImportFiles files oracle text).1.success.count = 1 ∧
    (handleImportFiles files oracle text).1.notFound.count = 1 ∧
    (handleImportFiles files oracle text).1.notFound.files = [u2.1] ∧
    (handleImportFiles files oracle text).2 = [⟨f.id, u1.2, f.vectorStoreId⟩] := by
  simp only [handleImportFiles, hparse]
  simp only [reconcile, List.foldl_cons, List.foldl_nil, reconcileStep, hm1, hm2, hor,
    if_true, emptySummary]
  refine ⟨?_, ?_, ?_, ?_⟩ <;> first | rfl | trivial

theorem c6_two_row_summary_witness :
    (handleImportFiles [fRec] (fun _ _ => true) csvText2).1.success.count = 1 ∧
    (handleImportFiles [fRec] (fun _ _ => true) csvText2).1.notFound.count = 1 ∧
    (handleImportFiles [fRec] (fun _ _ => true) csvText2).1.notFound.files
      = ["nosuch.pdf".data] ∧
    (handleImportFiles [fRec] (fun _ _ => true) csvText2).2
      = [⟨fRec.id, .jobj attrsOK, fRec.vectorStoreId⟩] :=
  c6_two_row_summary [fRec] (fun _ _ => true) csvText2
    (("f.pdf".data), .jobj attrsOK) (("nosuch.pdf".data), .jobj attrsOK) fRec
    (by rfl) (by rfl) rfl (by rfl)

/-- C10: whenever the parse stage succeeds with `updates`, the summary's
three buckets partition the rows — the counts sum to the number of rows,
each count equals the length of its files list, and each files list is the
in-order sublist of rows landing in that bucket. -/
theorem c10_summary_partition (files : List FileRec) (oracle : Str → JValue → Bool)
    (text : Str) (updates : List (Str × JValue))
    (hparse : parseImportRows text = .ok updates) :
    (handleImportFiles files oracle text).1.success.count
      + (handleImportFiles files oracle text).1.notFound.count
      + (handleImportFiles files oracle text).1.errors.count = updates.length ∧
    (handleImportFiles files oracle text).1.success.count
      = (handleImportFiles files oracle text).1.success.files.length ∧
    (handleImportFiles files oracle text).1.notFound.count
      = (handleImportFiles files oracle text).1.notFound.files.length ∧
    (handleImportFiles files oracle text).1.errors.count
      = (handleImportFiles files oracle text).1.errors.files.length ∧
    (handleImportFiles files oracle text).1.success.files
      = (updates.filter (fun u => rowBucket files oracle u == 0)).map Prod.fst ∧
    (handleImportFiles files oracle text).1.errors.files
      = (updates.filter (fun u => rowBucket files oracle u == 1)).map
          (fun u => (u.1, ErrReason.updateFailed)) ∧
    (handleImportFiles files oracle text).1.notFound.files
      = (updates.filter (fun u => rowBucket files oracle u == 2)).map Prod.fst := by
  simp only [handleImportFiles, hparse]
  rw [reconcile, reconcile_spec]
  simp only [emptySummary, List.nil_append, Nat.zero_add]
  refine ⟨?_, ?_, ?_, ?_, ?_, ?_, ?_⟩
  all_goals try (first | rfl | trivial)
  simp only [List.length_map]
  have := filter_buckets_partition files oracle updates
  omega

theorem c10_summary_partition_witness :
    (handleImportFiles [fRec] (fun _ _ => true) csvText2).1.success.count
      + (handleImportFiles [fRec] (fun _ _ => true) csvText2).1.notFound.count
      + (handleImportFiles [fRec] (fun _ _ => true) csvText2).1.errors.count
      = [(("f.pdf".data), JValue.jobj attrsOK), (("nosuch.pdf".data), JValue.jobj attrsOK)].length ∧
    (handleImportFiles [fRec] (fun _ _ => true) csvText2).1.success.count
      = (handleImportFiles [fRec] (fun _ _ => true) csvText2).1.success.files.length ∧
    (handleImportFiles [fRec] (fun _ _ => true) csvText2).1.notFound.count
      = (handleImportFiles [fRec] (fun _ _ => true) csvText2).1.notFound.files.length ∧
    (handleImportFiles [fRec] (fun _ _ => true) csvText2).1.errors.count
      = (handleImportFiles [fRec] (fun _ _ => true) csvText2).1.errors.files.length ∧
    (handleImportFiles [fRec] (fun _ _ => true) csvText2).1.success.files
      = ([(("f.pdf".data), JValue.jobj attrsOK), (("nosuch.pdf".data), JValue.jobj attrsOK)].filter
          (fun u => rowBucket [fRec] (fun _ _ => true) u == 0)).map Prod.fst ∧
    (handleImportFiles [fRec] (fun _ _ => true) csvText2).1.errors.files
      = ([(("f.pdf".data), JValue.jobj attrsOK), (("nosuch.pdf".data), JValue.jobj attrsOK)].filter
          (fun u => rowBucket [fRec] (fun _ _ => true) u == 1)).map
          (fun u => (u.1, ErrReason.updateFailed)) ∧
    (handleImportFiles [fRec] (fun _ _ => true) csvText2).1.notFound.files
      = ([(("f.pdf".data), JValue.jobj attrsOK), (("nosuch.pdf".data), JValue.jobj attrsOK)].filter
          (fun u => rowBucket [fRec] (fun _ _ => true) u == 2)).map Prod.fst :=
  c10_summary_partition [fRec] (fun _ _ => true) csvText2
    [(("f.pdf".data), JValue.jobj attrsOK), (("nosuch.pdf".data), JValue.jobj attrsOK)] (by rfl)

/-- C1: if the data-row loop reaches a row whose decoded attribute object
violates the schema, the whole import aborts with that row's
schema-violation error and the import issues no PATCH call at all, also for
the rows before the offending one. -/
theorem c1_schema_fail_fast (files : List FileRec) (oracle : Str → JValue → Bool)
    (text : Str) (hdr l : Str) (pre post : List Str) (n : Str) (m : JObj)
    (hsplit : splitNonBlankLines text = hdr :: (pre ++ l :: post))
    (hha : headerAccepted (parseCSVLine hdr))
    (hnf : noFailIn pre)
    (hdec : lineDecodes l n (.jobj m))
    (hbad : schemaBad m) :
    parseImportRows text = .error (.rowError n (violationKind (.jobj m))) ∧
    isSchemaViolation (violationKind (.jobj m)) = true ∧
    (handleImportFiles files oracle text).2 = [] := by
  obtain ⟨hv, hsv⟩ := schemaBad_validate m hbad
  obtain ⟨hskip, c0, c1, crest, hline, hn, hne, hjson⟩ := hdec
  have hpl : processLine l = .failRow (.rowError n (violationKind (.jobj m))) := by
    rw [processLine, if_neg (fun hcon => hskip ((Bool.or_eq_true _ _).mp hcon))]
    simp only [hline, hn, hjson, hv]
    rw [if_neg (by cases n with | nil => exact absurd rfl hne | cons a t => simp)]
  have hmain : parseImportRows text = .error (.rowError n (violationKind (.jobj m))) := by
    cases hph : parseCSVLine hdr with
    | nil => rw [hph] at hha; simp [headerAccepted] at hha
    | cons h0 t =>
      cases t with
      | nil => rw [hph] at hha; simp [headerAccepted] at hha
      | cons h1 hs =>
        rw [hph] at hha
        obtain ⟨hc1, hc2⟩ := hha
        simp only [parseImportRows, hsplit, hph]
        rw [if_neg (not_not_intro hc1), if_pos hc2]
        exact processRows_reach pre l post [] _ hnf hpl
  exact ⟨hmain, hsv, by simp only [handleImportFiles, hmain]⟩

theorem c1_schema_fail_fast_witness :
    parseImportRows csvTextBad
      = .error (.rowError ("g.pdf".data) (violationKind (.jobj attrsNoStatus))) ∧
    isSchemaViolation (violationKind (.jobj attrsNoStatus)) = true ∧
    (handleImportFiles [fRec] (fun _ _ => true) csvTextBad).2 = [] :=
  c1_schema_fail_fast [fRec] (fun _ _ => true) csvTextBad hdrLine rowG [rowF] []
    ("g.pdf".data) attrsNoStatus (by rfl)
    (by exact ⟨by decide, by decide⟩)
    (by
      intro l2 hl2 e
      rw [List.mem_singleton] at hl2
      subst hl2
      rw [show processLine rowF = .okRow ("f.pdf".data) (.jobj attrsOK) from rfl]
      simp)
    ⟨by decide, ("g.pdf".data), stringifyV (.jobj attrsNoStatus), [],
      by rfl, by decide, by decide, by rfl⟩
    (Or.inl ⟨("status".data), by decide, by rfl⟩)

/-- C4 (amended): for a header line that parses to at least two columns,
the import proceeds to the data rows exactly when the first column
case-insensitively equals `file name` and the second case-insensitively
contains `attributes`, and otherwise aborts with `invalidFormat` and issues
no PATCH; `File Name,Attributes` is accepted and `Name,Meta` is rejected.
(A header parsing to fewer than two columns instead crashes — see the
counterexample.) -/
theorem c4_header_validation :
    (∀ (text : Str) (hdr : Str) (rest : List Str) (h0 h1 : Str) (hs : List Str),
      splitNonBlankLines text = hdr :: rest →
      parseCSVLine hdr = h0 :: h1 :: hs →
      (headerAccepted (parseCSVLine hdr) → parseImportRows text = processRows rest []) ∧
      (¬ headerAccepted (parseCSVLine hdr) →
        parseImportRows text = .error .invalidFormat ∧
        ∀ (files : List FileRec) (oracle : Str → JValue → Bool),
          (handleImportFiles files oracle text).2 = [])) ∧
    headerAccepted (parseCSVLine ("File Name,Attributes".data)) ∧
    ¬ headerAccepted (parseCSVLine ("Name,Meta".data)) := by
  refine ⟨?_, by exact ⟨by decide, by decide⟩, ?_⟩
  · intro text hdr rest h0 h1 hs hsplit hph
    constructor
    · intro hacc
      rw [hph] at hacc
      obtain ⟨hc1, hc2⟩ := hacc
      simp only [parseImportRows, hsplit, hph]
      rw [if_neg (not_not_intro hc1), if_pos hc2]
    · intro hnacc
      rw [hph] at hnacc
      have hmain : parseImportRows text = .error .invalidFormat := by
        simp only [parseImportRows, hsplit, hph]
        by_cases hc1 : toLowerChars h0 = "file name".data
        · have hc2 : ¬ includesChars (toLowerChars h1) ("attributes".data) = true :=
            fun hc2 => hnacc ⟨hc1, hc2⟩
          rw [if_neg (not_not_intro hc1), if_neg hc2]
        · rw [if_pos hc1]
      exact ⟨hmain, fun files oracle => by simp only [handleImportFiles, hmain]⟩
  · intro hacc
    rw [show parseCSVLine ("Name,Meta".data) = ["Name".data, "Meta".data] from by decide]
      at hacc
    exact absurd hacc.1 (by decide)

theorem c4_header_validation_witness :
    parseImportRows csvTextOK = processRows [rowF] [] ∧
    parseImportRows csvTextNM = .error .invalidFormat :=
  ⟨(c4_header_validation.1 csvTextOK hdrLine [rowF] ("File Name".data)
      ("Attributes".data) [] (by rfl) (by rfl)).1 (by exact ⟨by decide, by decide⟩),
   ((c4_header_validation.1 csvTextNM ("Name,Meta".data) [rowF] ("Name".data)
      ("Meta".data) [] (by rfl) (by decide)).2
     (fun hacc => absurd hacc.1 (by decide))).1⟩

theorem c4_header_validation_cex :
    toLowerChars ("File Name".data) = "file name".data ∧
    parseCSVLine ("File Name".data) = ["File Name".data] ∧
    parseImportRows ("File Name".data) = .error .headerCrash ∧
    ImportError.headerCrash ≠ ImportError.invalidFormat :=
  ⟨by decide, by decide, by rfl, by decide⟩

/-- C2 (amended): for a nonempty file list whose records have schema-valid,
duplicate-free, plain (escape-free) attribute objects and display names
free of quotes and newlines that do not trim to nothing, exporting and
re-importing (after the 7→2 column remap) is accepted and reconstructs each
record's exact attribute map, in order. -/
theorem c2_export_import_roundtrip (fmtDate : Int → Str) (files : List FileRec)
    (hne : files ≠ []) (hgood : ∀ f ∈ files, goodRecord f) :
    parseImportRows (exportThenImportText fmtDate files)
      = .ok (files.map (fun f => (trimChars (displayName f), f.attributes))) :=
  parseImportRows_roundTrip fmtDate files hne hgood

theorem c2_export_import_roundtrip_witness :
    parseImportRows (exportThenImportText fmtD [fRec])
      = .ok ([fRec].map (fun f => (trimChars (displayName f), f.attributes))) :=
  c2_export_import_roundtrip fmtD [fRec] (by simp)
    (by
      intro f hf
      rw [List.mem_singleton] at hf
      subst hf
      exact ⟨⟨attrsOK, rfl, by decide, by decide⟩, by rfl, by decide, by decide,
        by decide, by decide⟩)

theorem c2_export_import_roundtrip_cex :
    parseImportRows (exportThenImportText fmtD [fRecQ])
      = .error (.rowError ("f.pdf".data) .jsonSyntax) ∧
    ¬ ∃ rows, parseImportRows (exportThenImportText fmtD [fRecQ]) = .ok rows := by
  refine ⟨by rfl, ?_⟩
  rintro ⟨rows, hcon⟩
  rw [show parseImportRows (exportThenImportText fmtD [fRecQ])
      = .error (.rowError ("f.pdf".data) .jsonSyntax) from rfl] at hcon
  exact Except.noConfusion hcon
